import Mathlib

/-!
# SHA-256 (sha256.c): shallow embedding and verification

The C file keeps the hash context in four globals (`m_data`, `m_blocklen`,
`m_bitlen`, `m_state`).  Here they are the fields of `Ctx`, and every C function
that touches the globals becomes a function `Ctx → Ctx`.  Machine integers are
natural numbers, with an explicit `% 2 ^ w` wherever the C arithmetic can wrap.
Arrays are lists: `a[i] = v` is `List.set`, a read `a[i]` is `List.getD a i 0`.
Output buffers passed by pointer (`hash`, `hashstr`) are passed in and returned;
they are assumed not to alias the globals.
-/

namespace SHA256

/-! ## The code -/

/-- The globals of sha256.c: `uint8_t m_data[64]`, `uint32_t m_blocklen`,
`uint64_t m_bitlen`, `uint32_t m_state[8]`. -/
structure Ctx where
  m_data : List Nat
  m_blocklen : Nat
  m_bitlen : Nat
  m_state : List Nat
  deriving DecidableEq, Repr

/-- The table `static const uint32_t K[]` (sha256.c, lines 23-40), row by row as the
source lays it out. -/
def K : List Nat := List.flatten [
  [0x428a2f98,0x71374491,0xb5c0fbcf,0xe9b5dba5],
  [0x3956c25b,0x59f111f1,0x923f82a4,0xab1c5ed5],
  [0xd807aa98,0x12835b01,0x243185be,0x550c7dc3],
  [0x72be5d74,0x80deb1fe,0x9bdc06a7,0xc19bf174],
  [0xe49b69c1,0xefbe4786,0x0fc19dc6,0x240ca1cc],
  [0x2de92c6f,0x4a7484aa,0x5cb0a9dc,0x76f988da],
  [0x983e5152,0xa831c66d,0xb00327c8,0xbf597fc7],
  [0xc6e00bf3,0xd5a79147,0x06ca6351,0x14292967],
  [0x27b70a85,0x2e1b2138,0x4d2c6dfc,0x53380d13],
  [0x650a7354,0x766a0abb,0x81c2c92e,0x92722c85],
  [0xa2bfe8a1,0xa81a664b,0xc24b8b70,0xc76c51a3],
  [0xd192e819,0xd6990624,0xf40e3585,0x106aa070],
  [0x19a4c116,0x1e376c08,0x2748774c,0x34b0bcb5],
  [0x391c0cb3,0x4ed8aa4a,0x5b9cca4f,0x682e6ff3],
  [0x748f82ee,0x78a5636f,0x84c87814,0x8cc70208],
  [0x90befffa,0xa4506ceb,0xbef9a3f7,0xc67178f2]
]

/-- The function `sha256_init` (lines 56-67): the buffer `m_data` is not touched. -/
def sha256_init (ctx : Ctx) : Ctx :=
  { ctx with
    m_blocklen := 0
    m_bitlen := 0
    m_state :=
      (((((((ctx.m_state.set 0 0x6a09e667).set 1 0xbb67ae85).set 2 0x3c6ef372).set 3
        0xa54ff53a).set 4 0x510e527f).set 5 0x9b05688c).set 6 0x1f83d9ab).set 7 0x5be0cd19 }

/-- The function `rotr` (lines 87-89) on `uint32_t`: the left shift wraps. -/
def rotr (x n : Nat) : Nat := (x >>> n) ||| ((x <<< (32 - n)) % 2 ^ 32)

/-- The function `choose` (lines 91-93); `~e` on `uint32_t` is `0xffffffff ^ e`. -/
def choose (e f g : Nat) : Nat := (e &&& f) ^^^ ((0xffffffff ^^^ e) &&& g)

/-- The function `majority` (lines 95-97). -/
def majority (a b c : Nat) : Nat := (a &&& (b ||| c)) ||| (b &&& c)

/-- The function `sig0` (lines 99-101). -/
def sig0 (x : Nat) : Nat := rotr x 7 ^^^ rotr x 18 ^^^ (x >>> 3)

/-- The function `sig1` (lines 103-105). -/
def sig1 (x : Nat) : Nat := rotr x 17 ^^^ rotr x 19 ^^^ (x >>> 10)

/-- Body of the first loop of `transform` (line 113), with `j = 4 * i`. -/
def transform_load (m_data : List Nat) (m : List Nat) (i : Nat) : List Nat :=
  let j := 4 * i
  m.set i (((m_data.getD j 0 <<< 24) ||| (m_data.getD (j + 1) 0 <<< 16) |||
    (m_data.getD (j + 2) 0 <<< 8) ||| m_data.getD (j + 3) 0) % 2 ^ 32)

/-- Body of the second loop of `transform` (line 118): each `+` wraps at 32 bits. -/
def transform_extend (m : List Nat) (k : Nat) : List Nat :=
  m.set k ((((sig1 (m.getD (k - 2) 0) + m.getD (k - 7) 0) % 2 ^ 32 +
    sig0 (m.getD (k - 15) 0)) % 2 ^ 32 + m.getD (k - 16) 0) % 2 ^ 32)

/-- Body of the round loop of `transform` (lines 126-144) on the local `state[8]`. -/
def transform_round (m : List Nat) (state : List Nat) (i : Nat) : List Nat :=
  let maj := majority (state.getD 0 0) (state.getD 1 0) (state.getD 2 0)
  let xorA := rotr (state.getD 0 0) 2 ^^^ rotr (state.getD 0 0) 13 ^^^ rotr (state.getD 0 0) 22
  let ch := choose (state.getD 4 0) (state.getD 5 0) (state.getD 6 0)
  let xorE := rotr (state.getD 4 0) 6 ^^^ rotr (state.getD 4 0) 11 ^^^ rotr (state.getD 4 0) 25
  let sum := ((((m.getD i 0 + K.getD i 0) % 2 ^ 32 + state.getD 7 0) % 2 ^ 32 + ch) % 2 ^ 32 +
    xorE) % 2 ^ 32
  let newA := ((xorA + maj) % 2 ^ 32 + sum) % 2 ^ 32
  let newE := (state.getD 3 0 + sum) % 2 ^ 32
  let s7 := state.set 7 (state.getD 6 0)
  let s6 := s7.set 6 (s7.getD 5 0)
  let s5 := s6.set 5 (s6.getD 4 0)
  let s4 := s5.set 4 newE
  let s3 := s4.set 3 (s4.getD 2 0)
  let s2 := s3.set 2 (s3.getD 1 0)
  let s1 := s2.set 1 (s2.getD 0 0)
  s1.set 0 newA

/-- The function `transform` (lines 107-150).  The locals `m[64]` and `state[8]`
start as zeros (every entry is written before it is read). -/
def transform (ctx : Ctx) : Ctx :=
  let m := (List.range 16).foldl (transform_load ctx.m_data) (List.replicate 64 0)
  let m := (List.range' 16 48).foldl transform_extend m
  let state := (List.range 8).foldl (fun s i => s.set i (ctx.m_state.getD i 0))
    (List.replicate 8 0)
  let state := (List.range 64).foldl (transform_round m) state
  { ctx with
    m_state := (List.range 8).foldl
      (fun ms i => ms.set i ((ms.getD i 0 + state.getD i 0) % 2 ^ 32)) ctx.m_state }

/-- One iteration of the loop of `sha256_update` (lines 71-78) on the byte `data[i]`. -/
def update_byte (ctx : Ctx) (b : Nat) : Ctx :=
  let c := { ctx with
    m_data := ctx.m_data.set ctx.m_blocklen b
    m_blocklen := (ctx.m_blocklen + 1) % 2 ^ 32 }
  if c.m_blocklen = 64 then
    let t := transform c
    { t with m_bitlen := (t.m_bitlen + 512) % 2 ^ 64, m_blocklen := 0 }
  else c

/-- The function `sha256_update` (lines 69-80); `data` stands for the `length` bytes
`data[0..length)`. -/
def sha256_update (ctx : Ctx) (data : List Nat) : Ctx :=
  data.foldl update_byte ctx

/-- The function `pad` (lines 152-179).  The `while (i < end)` loop writes the
indices `m_blocklen + 1, ..., end - 1`; `memset(m_data, 0, 56)` zeroes the first
56 bytes. -/
def pad (ctx : Ctx) : Ctx :=
  let i := ctx.m_blocklen
  let fin := if ctx.m_blocklen < 56 then 56 else 64
  let c := { ctx with m_data := ctx.m_data.set i 0x80 }
  let c := { c with
    m_data := (List.range' (i + 1) (fin - (i + 1))).foldl (fun d k => d.set k 0x00) c.m_data }
  let c := if c.m_blocklen ≥ 56 then
      let t := transform c
      { t with m_data := List.replicate 56 0 ++ t.m_data.drop 56 }
    else c
  let c := { c with m_bitlen := (c.m_bitlen + (c.m_blocklen * 8) % 2 ^ 32) % 2 ^ 64 }
  let c := { c with m_data := c.m_data.set 63 (c.m_bitlen % 256) }
  let c := { c with m_data := c.m_data.set 62 ((c.m_bitlen >>> 8) % 256) }
  let c := { c with m_data := c.m_data.set 61 ((c.m_bitlen >>> 16) % 256) }
  let c := { c with m_data := c.m_data.set 60 ((c.m_bitlen >>> 24) % 256) }
  let c := { c with m_data := c.m_data.set 59 ((c.m_bitlen >>> 32) % 256) }
  let c := { c with m_data := c.m_data.set 58 ((c.m_bitlen >>> 40) % 256) }
  let c := { c with m_data := c.m_data.set 57 ((c.m_bitlen >>> 48) % 256) }
  let c := { c with m_data := c.m_data.set 56 ((c.m_bitlen >>> 56) % 256) }
  transform c

/-- The function `revert` (lines 181-189): returns the context (which it only
reads) and the buffer `hash` after the 32 writes. -/
def revert (ctx : Ctx) (hash : List Nat) : Ctx × List Nat :=
  (ctx, (List.range 4).foldl (fun h i =>
    (List.range 8).foldl (fun h j =>
      h.set (i + j * 4) ((ctx.m_state.getD j 0 >>> (24 - i * 8)) &&& 0x000000ff)) h) hash)

/-- The function `sha256_digest` (lines 82-85). -/
def sha256_digest (ctx : Ctx) (hash : List Nat) : Ctx × List Nat :=
  revert (pad ctx) hash

/-- The local table `hex_chars` of `sha256_toString` (line 192), as character codes. -/
def hex_chars : List Nat :=
  "0123456789abcdef".toList.map Char.toNat

/-- The function `sha256_toString` (lines 191-200); `SHA256_STR_LEN` is 65. -/
def sha256_toString (hashstr : List Nat) (digest : List Nat) : List Nat :=
  let hashstr := List.replicate 65 0 ++ hashstr.drop 65
  (List.range 32).foldl (fun s i =>
    let s := s.set (i * 2) (hex_chars.getD ((digest.getD i 0 &&& 0xF0) >>> 4) 0)
    s.set (i * 2 + 1) (hex_chars.getD ((digest.getD i 0 &&& 0x0F) >>> 0) 0)) hashstr

/-- The C string held in a byte buffer: the characters before the first zero byte
(what `printf("%s")` prints). -/
def cString (buf : List Nat) : String :=
  String.mk ((buf.takeWhile (fun b => b != 0)).map Char.ofNat)

/-! ## The specification: FIPS 180-4 as the design document words it -/

/-- Big-endian value of four bytes. -/
def specBe32 (b0 b1 b2 b3 : Nat) : Nat := b0 * 2 ^ 24 + b1 * 2 ^ 16 + b2 * 2 ^ 8 + b3

/-- Step 1 of the compression function: the 16 big-endian words of a block. -/
def specWords (block : List Nat) : List Nat :=
  (List.range 16).map (fun i => specBe32 (block.getD (4 * i) 0) (block.getD (4 * i + 1) 0)
    (block.getD (4 * i + 2) 0) (block.getD (4 * i + 3) 0))

/-- Step 2, one word: `m[k] = σ1(m[k-2]) + m[k-7] + σ0(m[k-15]) + m[k-16]` where `k`
is the number of words known so far; the sum is taken mod `2 ^ 32`. -/
def specExtend (m : List Nat) : List Nat :=
  let k := m.length
  m ++ [(sig1 (m.getD (k - 2) 0) + m.getD (k - 7) 0 + sig0 (m.getD (k - 15) 0) +
    m.getD (k - 16) 0) % 2 ^ 32]

/-- Steps 1 and 2: the 64-word message schedule of a block. -/
def specSchedule (block : List Nat) : List Nat :=
  Nat.iterate specExtend 48 (specWords block)

/-- The eight working variables `a..h` of step 3. -/
structure Work where
  a : Nat
  b : Nat
  c : Nat
  d : Nat
  e : Nat
  f : Nat
  g : Nat
  h : Nat
  deriving DecidableEq, Repr

/-- Step 3: copy the state words into the working variables. -/
def Work.ofList (s : List Nat) : Work :=
  ⟨s.getD 0 0, s.getD 1 0, s.getD 2 0, s.getD 3 0, s.getD 4 0, s.getD 5 0, s.getD 6 0,
    s.getD 7 0⟩

/-- The working variables in the order `a, b, c, d, e, f, g, h`. -/
def Work.toList (w : Work) : List Nat := [w.a, w.b, w.c, w.d, w.e, w.f, w.g, w.h]

/-- The function `Σ0(a) = rotr(a,2) ⊕ rotr(a,13) ⊕ rotr(a,22)`. -/
def specSigma0 (x : Nat) : Nat := rotr x 2 ^^^ rotr x 13 ^^^ rotr x 22

/-- The function `Σ1(e) = rotr(e,6) ⊕ rotr(e,11) ⊕ rotr(e,25)`. -/
def specSigma1 (x : Nat) : Nat := rotr x 6 ^^^ rotr x 11 ^^^ rotr x 25

/-- Step 4, one round with schedule word `mi` and round constant `ki`. -/
def specRound (w : Work) (mi ki : Nat) : Work :=
  let sum := (mi + ki + w.h + choose w.e w.f w.g + specSigma1 w.e) % 2 ^ 32
  let newA := (specSigma0 w.a + majority w.a w.b w.c + sum) % 2 ^ 32
  let newE := (w.d + sum) % 2 ^ 32
  { a := newA, b := w.a, c := w.b, d := w.c, e := newE, f := w.e, g := w.f, h := w.g }

/-- The compression function, steps 1-5. -/
def specCompress (state block : List Nat) : List Nat :=
  let m := specSchedule block
  let w := (List.range 64).foldl (fun w i => specRound w (m.getD i 0) (K.getD i 0))
    (Work.ofList state)
  List.zipWith (fun s v => (s + v) % 2 ^ 32) state w.toList

/-- The initial hash value. -/
def specIV : List Nat :=
  [0x6a09e667, 0xbb67ae85, 0x3c6ef372, 0xa54ff53a, 0x510e527f, 0x9b05688c, 0x1f83d9ab, 0x5be0cd19]

/-- The 8-byte big-endian encoding of a bit count (of its low 64 bits). -/
def specBe64 (x : Nat) : List Nat :=
  [x / 2 ^ 56 % 256, x / 2 ^ 48 % 256, x / 2 ^ 40 % 256, x / 2 ^ 32 % 256,
    x / 2 ^ 24 % 256, x / 2 ^ 16 % 256, x / 2 ^ 8 % 256, x % 256]

/-- The least number `k` of zero bytes with `n + 1 + k ≡ 56 (mod 64)`. -/
def specZeroCount (n : Nat) : Nat :=
  ((List.range 64).find? (fun k => decide ((n + 1 + k) % 64 = 56))).getD 0

/-- The padded message: `msg`, one `0x80` byte, the zero bytes, the bit length. -/
def specPad (msg : List Nat) : List Nat :=
  msg ++ [0x80] ++ List.replicate (specZeroCount msg.length) 0 ++ specBe64 (8 * msg.length)

/-- The first `k` consecutive 64-byte blocks of a byte sequence. -/
def specBlocksAux : Nat → List Nat → List (List Nat)
  | 0, _ => []
  | k + 1, l => l.take 64 :: specBlocksAux k (l.drop 64)

/-- The complete 64-byte blocks of a byte sequence, in order. -/
def specBlocks (l : List Nat) : List (List Nat) := specBlocksAux (l.length / 64) l

/-- The four bytes of a word, most significant first. -/
def specWordBytes (w : Nat) : List Nat := [w / 2 ^ 24 % 256, w / 2 ^ 16 % 256, w / 2 ^ 8 % 256, w % 256]

/-- SHA-256 of a byte sequence: pad, fold the compression function over the blocks
from the IV, serialise the eight words big-endian. -/
def specSHA256 (msg : List Nat) : List Nat :=
  ((specBlocks (specPad msg)).foldl specCompress specIV).flatMap specWordBytes

/-- The one or two blocks that finalization compresses: `tail` is the buffered part
of the message and `bits` the total bit count. -/
def specFinalBlocks (tail : List Nat) (bits : Nat) : List (List Nat) :=
  if tail.length < 56 then
    [tail ++ [0x80] ++ List.replicate (55 - tail.length) 0 ++ specBe64 bits]
  else
    [tail ++ [0x80] ++ List.replicate (63 - tail.length) 0,
      List.replicate 56 0 ++ specBe64 bits]

/-- Value of one lowercase hexadecimal character code. -/
def specHexVal (c : Nat) : Nat :=
  if 48 ≤ c ∧ c ≤ 57 then c - 48 else if 97 ≤ c ∧ c ≤ 102 then c - 87 else 0

/-- Decode a string of hexadecimal character codes pairwise into bytes. -/
def specHexDecode : List Nat → List Nat
  | hi :: lo :: rest => (16 * specHexVal hi + specHexVal lo) :: specHexDecode rest
  | _ => []

/-! ## Auxiliary definitions for the proofs -/

/-- The state that `transform` leaves when run on state `st` and buffer `blk`. -/
def blockStep (st blk : List Nat) : List Nat :=
  (transform { m_data := blk, m_blocklen := 0, m_bitlen := 0, m_state := st }).m_state

/-- The globals as C initialises them at program start: all zero. -/
def zeroCtx : Ctx :=
  { m_data := List.replicate 64 0, m_blocklen := 0, m_bitlen := 0,
    m_state := List.replicate 8 0 }

/-- A context left over from earlier use: arbitrary buffer, counters and state. -/
def usedCtx : Ctx :=
  { m_data := List.replicate 64 0xff, m_blocklen := 7, m_bitlen := 1024,
    m_state := [1, 2, 3, 4, 5, 6, 7, 8] }

/-- The hexadecimal string that `main` prints for one argument: `sha256_init`,
`sha256_update`, `sha256_digest`, `sha256_toString` and the C string in `hashstr`. -/
def hexDigest (ctx : Ctx) (hash hashstr msg : List Nat) : String :=
  cString (sha256_toString hashstr (sha256_digest (sha256_update (sha256_init ctx) msg) hash).2)

/-- What `sha256_update` maintains: `all` is the byte sequence consumed so far,
`s0` and `b0` the state and bit counter it started from. -/
structure UpdInv (s0 : List Nat) (b0 : Nat) (all : List Nat) (c : Ctx) : Prop where
  state : c.m_state = (specBlocks all).foldl blockStep s0
  blocklen : c.m_blocklen = all.length % 64
  bitlen : c.m_bitlen = (b0 + 512 * (all.length / 64)) % 2 ^ 64
  len : c.m_data.length = 64
  buf : c.m_data.take (all.length % 64) = all.drop (64 * (all.length / 64))

/-- Trial division: `2 ≤ n` and no `d` with `2 ≤ d < n` divides `n`. -/
def specIsPrime (n : Nat) : Bool :=
  decide (2 ≤ n) && (List.range' 2 (n - 2)).all (fun d => n % d != 0)

/-- The primes below 312 in increasing order (there are 64 of them). -/
def specPrimes : List Nat := (List.range 312).filter specIsPrime

/-- The integer part of the `k`-th root of `p`: the least `r` with `p < (r + 1) ^ k`. -/
def specRoot (k p : Nat) : Nat :=
  ((List.range (p + 1)).find? (fun r => decide (p < (r + 1) ^ k))).getD 0

/-- The word `s` is the first 32 bits of the fractional part of the `k`-th root of `p`,
in exact integer arithmetic, with `r = specRoot k p` the integer part. -/
def rootCheck (k p s : Nat) : Bool :=
  decide (specRoot k p ^ k ≤ p ∧ p < (specRoot k p + 1) ^ k ∧
    (specRoot k p * 2 ^ 32 + s) ^ k ≤ p * 2 ^ (32 * k) ∧
    p * 2 ^ (32 * k) < (specRoot k p * 2 ^ 32 + s + 1) ^ k)

/-! ## The function `main` -/

/-- The C library function `strlen` on the bytes at a `char*`: the number of bytes
before the first zero byte. -/
def strlen (s : List Nat) : Nat := (s.takeWhile (fun b => b != 0)).length

/-- The state of `main`: the globals, the local `hash[32]`, the static `hashstr[65]`
and the lines written to standard output so far. -/
structure MainState where
  ctx : Ctx
  hash : List Nat
  hashstr : List Nat
  stdout : List String

/-- Body of the loop of `main` (lines 209-213) for the argument `arg = argv[i]`;
`printf("%s\n", hashstr)` writes one line. -/
def main_iteration (s : MainState) (arg : List Nat) : MainState :=
  let c := sha256_init s.ctx
  let c := sha256_update c (arg.take (strlen arg))
  let d := sha256_digest c s.hash
  let hashstr := sha256_toString s.hashstr d.2
  { ctx := d.1, hash := d.2, hashstr := hashstr,
    stdout := s.stdout ++ [cString hashstr ++ "\n"] }

/-- The function `main` (lines 203-217): `argv` holds the `argc` argument strings and
the loop starts at index 1.  The globals and the static `hashstr` start zeroed, the
local `hash` holds whatever was on the stack.  Returns the lines written and the
exit status. -/
def main (hash : List Nat) (argv : List (List Nat)) : List String × Int :=
  let s := (argv.drop 1).foldl main_iteration
    { ctx := zeroCtx, hash := hash, hashstr := List.replicate 65 0, stdout := [] }
  (s.stdout, 0)

/-- Lowercase hexadecimal rendering of a byte sequence: two digits per byte, most
significant nibble first. -/
def specHex (d : List Nat) : String :=
  String.mk (d.flatMap (fun b => [Nat.digitChar (b / 16), Nat.digitChar (b % 16)]))

/-! ## The code with checked array accesses

The same functions again, with every array access checked: a read or write outside
the array makes the function return `none`. -/

/-- A checked read `a[i]`. -/
def readAt (a : List Nat) (i : Nat) : Option Nat :=
  if i < a.length then some (a.getD i 0) else none

/-- A checked read `a[k - j]`: the index must not be negative either. -/
def readAtSub (a : List Nat) (k j : Nat) : Option Nat :=
  if j ≤ k then readAt a (k - j) else none

/-- A checked write `a[i] = v`. -/
def writeAt (a : List Nat) (i : Nat) (v : Nat) : Option (List Nat) :=
  if i < a.length then some (a.set i v) else none

/-- A checked `memset(a, 0, n)`. -/
def memsetZero (a : List Nat) (n : Nat) : Option (List Nat) :=
  if n ≤ a.length then some (List.replicate n 0 ++ a.drop n) else none

/-- Checked `transform_load`. -/
def transform_loadC (m_data : List Nat) (m : List Nat) (i : Nat) : Option (List Nat) := do
  let j := 4 * i
  let b0 ← readAt m_data j
  let b1 ← readAt m_data (j + 1)
  let b2 ← readAt m_data (j + 2)
  let b3 ← readAt m_data (j + 3)
  writeAt m i (((b0 <<< 24) ||| (b1 <<< 16) ||| (b2 <<< 8) ||| b3) % 2 ^ 32)

/-- Checked `transform_extend`. -/
def transform_extendC (m : List Nat) (k : Nat) : Option (List Nat) := do
  let w2 ← readAtSub m k 2
  let w7 ← readAtSub m k 7
  let w15 ← readAtSub m k 15
  let w16 ← readAtSub m k 16
  writeAt m k ((((sig1 w2 + w7) % 2 ^ 32 + sig0 w15) % 2 ^ 32 + w16) % 2 ^ 32)

/-- Checked reads of one round of `transform` (lines 126-135): the values `newA` and
`newE`. -/
def round_valuesC (m : List Nat) (state : List Nat) (i : Nat) : Option (Nat × Nat) := do
  let a ← readAt state 0
  let b ← readAt state 1
  let c ← readAt state 2
  let maj := majority a b c
  let xorA := rotr a 2 ^^^ rotr a 13 ^^^ rotr a 22
  let e ← readAt state 4
  let f ← readAt state 5
  let g ← readAt state 6
  let ch := choose e f g
  let xorE := rotr e 6 ^^^ rotr e 11 ^^^ rotr e 25
  let mi ← readAt m i
  let ki ← readAt K i
  let h ← readAt state 7
  let sum := ((((mi + ki) % 2 ^ 32 + h) % 2 ^ 32 + ch) % 2 ^ 32 + xorE) % 2 ^ 32
  let newA := ((xorA + maj) % 2 ^ 32 + sum) % 2 ^ 32
  let d ← readAt state 3
  let newE := (d + sum) % 2 ^ 32
  pure (newA, newE)

/-- A checked `state[dst] = state[src]`. -/
def copyAt (state : List Nat) (dst src : Nat) : Option (List Nat) := do
  let v ← readAt state src
  writeAt state dst v

/-- Checked writes of one round of `transform` (lines 137-144). -/
def round_rotateC (state : List Nat) (newA newE : Nat) : Option (List Nat) := do
  let s7 ← copyAt state 7 6
  let s6 ← copyAt s7 6 5
  let s5 ← copyAt s6 5 4
  let s4 ← writeAt s5 4 newE
  let s3 ← copyAt s4 3 2
  let s2 ← copyAt s3 2 1
  let s1 ← copyAt s2 1 0
  writeAt s1 0 newA

/-- Checked `transform_round`. -/
def transform_roundC (m : List Nat) (state : List Nat) (i : Nat) : Option (List Nat) := do
  let v ← round_valuesC m state i
  round_rotateC state v.1 v.2

/-- Checked `transform`. -/
def transformC (ctx : Ctx) : Option Ctx := do
  let m ← (List.range 16).foldlM (transform_loadC ctx.m_data) (List.replicate 64 0)
  let m ← (List.range' 16 48).foldlM transform_extendC m
  let state ← (List.range 8).foldlM
    (fun s i => do let v ← readAt ctx.m_state i; writeAt s i v) (List.replicate 8 0)
  let state ← (List.range 64).foldlM (transform_roundC m) state
  let ms ← (List.range 8).foldlM
    (fun ms i => do
      let a ← readAt ms i
      let b ← readAt state i
      writeAt ms i ((a + b) % 2 ^ 32)) ctx.m_state
  pure { ctx with m_state := ms }

/-- Checked `update_byte`. -/
def update_byteC (ctx : Ctx) (b : Nat) : Option Ctx := do
  let d ← writeAt ctx.m_data ctx.m_blocklen b
  let c := { ctx with m_data := d, m_blocklen := (ctx.m_blocklen + 1) % 2 ^ 32 }
  if c.m_blocklen = 64 then do
    let t ← transformC c
    pure { t with m_bitlen := (t.m_bitlen + 512) % 2 ^ 64, m_blocklen := 0 }
  else pure c

/-- Checked `sha256_update`. -/
def sha256_updateC (ctx : Ctx) (data : List Nat) : Option Ctx :=
  data.foldlM update_byteC ctx

/-- Checked first part of `pad` (lines 157-161): the `0x80` byte and the zero fill. -/
def pad_fillC (ctx : Ctx) : Option (List Nat) := do
  let i := ctx.m_blocklen
  let fin := if ctx.m_blocklen < 56 then 56 else 64
  let d ← writeAt ctx.m_data i 0x80
  (List.range' (i + 1) (fin - (i + 1))).foldlM (fun d k => writeAt d k 0x00) d

/-- Checked writes of the length field in `pad` (lines 170-177). -/
def pad_lengthC (d : List Nat) (bitlen : Nat) : Option (List Nat) := do
  let d ← writeAt d 63 (bitlen % 256)
  let d ← writeAt d 62 ((bitlen >>> 8) % 256)
  let d ← writeAt d 61 ((bitlen >>> 16) % 256)
  let d ← writeAt d 60 ((bitlen >>> 24) % 256)
  let d ← writeAt d 59 ((bitlen >>> 32) % 256)
  let d ← writeAt d 58 ((bitlen >>> 40) % 256)
  let d ← writeAt d 57 ((bitlen >>> 48) % 256)
  writeAt d 56 ((bitlen >>> 56) % 256)

/-- Checked `pad`. -/
def padC (ctx : Ctx) : Option Ctx := do
  let d ← pad_fillC ctx
  let c := { ctx with m_data := d }
  let c ← if c.m_blocklen ≥ 56 then do
      let t ← transformC c
      let z ← memsetZero t.m_data 56
      pure { t with m_data := z }
    else pure c
  let c := { c with m_bitlen := (c.m_bitlen + (c.m_blocklen * 8) % 2 ^ 32) % 2 ^ 64 }
  let d ← pad_lengthC c.m_data c.m_bitlen
  transformC { c with m_data := d }

/-- Checked `revert`. -/
def revertC (ctx : Ctx) (hash : List Nat) : Option (Ctx × List Nat) := do
  let h ← (List.range 4).foldlM (fun h i =>
    (List.range 8).foldlM (fun h j => do
      let w ← readAt ctx.m_state j
      writeAt h (i + j * 4) ((w >>> (24 - i * 8)) &&& 0x000000ff)) h) hash
  pure (ctx, h)

/-- Checked `sha256_digest`. -/
def sha256_digestC (ctx : Ctx) (hash : List Nat) : Option (Ctx × List Nat) := do
  let c ← padC ctx
  revertC c hash

/-- Checked body of the loop of `sha256_toString` (lines 197-198). -/
def toString_byteC (digest : List Nat) (s : List Nat) (i : Nat) : Option (List Nat) := do
  let b ← readAt digest i
  let hi ← readAt hex_chars ((b &&& 0xF0) >>> 4)
  let s ← writeAt s (i * 2) hi
  let b ← readAt digest i
  let lo ← readAt hex_chars ((b &&& 0x0F) >>> 0)
  writeAt s (i * 2 + 1) lo

/-- Checked `sha256_toString`; `digest` points to 32 bytes. -/
def sha256_toStringC (hashstr : List Nat) (digest : List Nat) : Option (List Nat) := do
  let hashstr ← memsetZero hashstr 65
  (List.range 32).foldlM (toString_byteC digest) hashstr

/-! ## The compression function -/

theorem be32_eq (b0 b1 b2 b3 : Nat) (h0 : b0 < 256) (h1 : b1 < 256) (h2 : b2 < 256)
    (h3 : b3 < 256) :
    ((b0 <<< 24) ||| (b1 <<< 16) ||| (b2 <<< 8) ||| b3) % 2 ^ 32 = specBe32 b0 b1 b2 b3 := by
  have e1 : (b0 <<< 24) ||| (b1 <<< 16) = b0 * 2 ^ 24 + b1 * 2 ^ 16 := by
    have := Nat.mul_add_lt_is_or (i := 24) (b := b1 * 2 ^ 16) (by omega) b0
    rw [Nat.shiftLeft_eq, Nat.shiftLeft_eq, Nat.mul_comm b0, ← this]
  have e2 : (b0 * 2 ^ 24 + b1 * 2 ^ 16) ||| (b2 <<< 8) = b0 * 2 ^ 24 + b1 * 2 ^ 16 + b2 * 2 ^ 8 := by
    have := Nat.mul_add_lt_is_or (i := 16) (b := b2 * 2 ^ 8) (by omega) (b0 * 2 ^ 8 + b1)
    rw [Nat.shiftLeft_eq]
    have e : b0 * 2 ^ 24 + b1 * 2 ^ 16 = 2 ^ 16 * (b0 * 2 ^ 8 + b1) := by ring
    rw [e, ← this]
  have e3 : (b0 * 2 ^ 24 + b1 * 2 ^ 16 + b2 * 2 ^ 8) ||| b3 = b0 * 2 ^ 24 + b1 * 2 ^ 16 + b2 * 2 ^ 8 + b3 := by
    have := Nat.mul_add_lt_is_or (i := 8) (b := b3) (by omega) (b0 * 2 ^ 16 + b1 * 2 ^ 8 + b2)
    have e : b0 * 2 ^ 24 + b1 * 2 ^ 16 + b2 * 2 ^ 8 = 2 ^ 8 * (b0 * 2 ^ 16 + b1 * 2 ^ 8 + b2) := by ring
    rw [e, ← this]
  rw [e1, e2, e3, specBe32]
  apply Nat.mod_eq_of_lt
  omega

theorem getD_lt_of_forall (l : List Nat) (n i : Nat) (hn : 0 < n) (h : ∀ b ∈ l, b < n) :
    l.getD i 0 < n := by
  rw [List.getD_eq_getElem?_getD]
  cases hi : l[i]? with
  | none => simpa using hn
  | some v => simpa using h v (List.getElem?_mem hi)

theorem load_loop (d : List Nat) (hd : ∀ b ∈ d, b < 256) :
    (List.range 16).foldl (transform_load d) (List.replicate 64 0) =
      specWords d ++ List.replicate 48 0 := by
  have g : ∀ i, d.getD i 0 < 256 := fun i => getD_lt_of_forall d 256 i (by decide) hd
  have hr : List.range 16 = [0, 1, 2, 3, 4, 5, 6, 7, 8, 9, 10, 11, 12, 13, 14, 15] := by decide
  simp only [hr, specWords, List.foldl_cons, List.foldl_nil, transform_load, List.replicate,
    List.set_cons_zero, List.set_cons_succ, List.map_cons, List.map_nil, be32_eq _ _ _ _ (g _) (g _) (g _) (g _)]
  rfl

theorem specWords_length (d : List Nat) : (specWords d).length = 16 := by
  simp [specWords]

theorem specExtend_iterate_length (n : Nat) (m : List Nat) :
    (Nat.iterate specExtend n m).length = m.length + n := by
  induction n generalizing m with
  | zero => rfl
  | succ n ih => rw [Function.iterate_succ_apply, ih]; simp [specExtend]; omega

theorem set_append_replicate (l : List Nat) (n v : Nat) :
    (l ++ List.replicate (n + 1) 0).set l.length v = (l ++ [v]) ++ List.replicate n 0 := by
  rw [List.set_append_right _ _ (le_refl _)]
  simp [List.replicate_succ]

theorem extend_loop (n : Nat) (hn : n ≤ 48) (m0 : List Nat) (h0 : m0.length = 16) :
    (List.range' 16 n).foldl transform_extend (m0 ++ List.replicate 48 0) =
      Nat.iterate specExtend n m0 ++ List.replicate (48 - n) 0 := by
  induction n with
  | zero => rfl
  | succ n ih =>
    have hlen := specExtend_iterate_length n m0
    rw [List.range'_concat, List.foldl_append, ih (by omega), Function.iterate_succ_apply']
    simp only [List.foldl_cons, List.foldl_nil, transform_extend]
    obtain ⟨r, hr⟩ : ∃ r, 48 - n = r + 1 := ⟨47 - n, by omega⟩
    have hr' : 48 - (n + 1) = r := by omega
    rw [hr, hr']
    have hk : 16 + 1 * n = (Nat.iterate specExtend n m0).length := by omega
    rw [hk, set_append_replicate]
    congr 1
    simp only [specExtend]
    congr 2
    have gd : ∀ j, j < (Nat.iterate specExtend n m0).length →
        (Nat.iterate specExtend n m0 ++ List.replicate (r + 1) 0).getD j 0 =
          (Nat.iterate specExtend n m0).getD j 0 := by
      intro j hj
      simp [List.getD_eq_getElem?_getD, List.getElem?_append_left hj]
    rw [gd _ (by omega), gd _ (by omega), gd _ (by omega), gd _ (by omega)]
    omega


theorem length_eight (s : List Nat) (h : s.length = 8) :
    ∃ a b c d e f g k, s = [a, b, c, d, e, f, g, k] := by
  match s, h with
  | [a, b, c, d, e, f, g, k], _ => exact ⟨a, b, c, d, e, f, g, k, rfl⟩

theorem round_eq (m : List Nat) (w : Work) (i : Nat) :
    transform_round m w.toList i = (specRound w (m.getD i 0) (K.getD i 0)).toList := by
  simp only [transform_round, Work.toList, specRound, specSigma0, specSigma1, List.getD_cons_zero,
    List.getD_cons_succ, List.set_cons_zero, List.set_cons_succ]
  simp only [List.cons.injEq, and_true, true_and]
  constructor <;> omega

theorem round_loop (m : List Nat) (is : List Nat) (w : Work) :
    is.foldl (transform_round m) w.toList =
      (is.foldl (fun w i => specRound w (m.getD i 0) (K.getD i 0)) w).toList := by
  induction is generalizing w with
  | nil => rfl
  | cons i is ih => rw [List.foldl_cons, List.foldl_cons, round_eq, ih]

theorem add_loop (s : List Nat) (w : Work) (hs : s.length = 8) :
    (List.range 8).foldl (fun ms i => ms.set i ((ms.getD i 0 + w.toList.getD i 0) % 2 ^ 32)) s =
      List.zipWith (fun s v => (s + v) % 2 ^ 32) s w.toList := by
  obtain ⟨a, b, c, d, e, f, g, k, hst⟩ := length_eight _ hs
  have hr : List.range 8 = [0, 1, 2, 3, 4, 5, 6, 7] := by decide
  rw [hst]
  simp only [hr, List.foldl_cons, List.foldl_nil, Work.toList, List.getD_cons_zero,
    List.getD_cons_succ, List.set_cons_zero, List.set_cons_succ, List.zipWith_cons_cons,
    List.zipWith_nil_left]

theorem copy_loop (s : List Nat) (hs : s.length = 8) :
    (List.range 8).foldl (fun t i => t.set i (s.getD i 0)) (List.replicate 8 0) =
      (Work.ofList s).toList := by
  obtain ⟨a, b, c, d, e, f, g, k, hst⟩ := length_eight _ hs
  rw [hst]; rfl

theorem schedule_loop (d : List Nat) (hd : ∀ b ∈ d, b < 256) :
    (List.range' 16 48).foldl transform_extend
      ((List.range 16).foldl (transform_load d) (List.replicate 64 0)) = specSchedule d := by
  rw [load_loop _ hd, extend_loop 48 (le_refl _) _ (specWords_length _)]
  simp [specSchedule]

theorem transform_eq (ctx : Ctx) (hs : ctx.m_state.length = 8) (hd : ∀ b ∈ ctx.m_data, b < 256) :
    transform ctx = { ctx with m_state := specCompress ctx.m_state ctx.m_data } := by
  simp only [transform, schedule_loop _ hd, copy_loop _ hs, round_loop, add_loop _ _ hs,
    specCompress]

/-! ## Blocks and `sha256_update` -/

theorem transform_blockStep (c : Ctx) :
    transform c = { c with m_state := blockStep c.m_state c.m_data } := by
  simp only [transform, blockStep]

theorem blocksAux_append_left (k : Nat) (A B : List Nat) (h : 64 * k ≤ A.length) :
    specBlocksAux k (A ++ B) = specBlocksAux k A := by
  induction k generalizing A with
  | zero => rfl
  | succ k ih =>
    simp only [specBlocksAux]
    rw [List.take_append_of_le_length (by omega), List.drop_append_of_le_length (by omega),
      ih _ (by simp; omega)]

theorem blocksAux_add (k j : Nat) (L : List Nat) :
    specBlocksAux (k + j) L = specBlocksAux k L ++ specBlocksAux j (L.drop (64 * k)) := by
  induction k generalizing L with
  | zero => simp [specBlocksAux]
  | succ k ih =>
    have e : k + 1 + j = (k + j) + 1 := by omega
    rw [e]
    simp only [specBlocksAux, List.cons_append, ih, List.drop_drop]
    have e2 : 64 + 64 * k = 64 * (k + 1) := by omega
    rw [e2]

theorem blocksAux_one (L : List Nat) (h : L.length = 64) : specBlocksAux 1 L = [L] := by
  simp [specBlocksAux, List.take_of_length_le (le_of_eq h)]

theorem blocksAux_mem (k : Nat) (L blk : List Nat) (h : blk ∈ specBlocksAux k L) :
    ∀ b ∈ blk, b ∈ L := by
  induction k generalizing L with
  | zero => simp [specBlocksAux] at h
  | succ k ih =>
    simp only [specBlocksAux, List.mem_cons] at h
    intro b hb
    rcases h with h | h
    · subst h; exact List.mem_of_mem_take hb
    · exact List.mem_of_mem_drop (ih _ h b hb)

theorem take_set_succ (l : List Nat) (i b : Nat) (h : i < l.length) :
    (l.set i b).take (i + 1) = l.take i ++ [b] := by
  induction l generalizing i with
  | nil => simp at h
  | cons x l ih =>
    cases i with
    | zero => simp
    | succ i => simp at h; simp [ih i h]

theorem updInv_step (s0 : List Nat) (b0 : Nat) (all : List Nat) (c : Ctx) (b : Nat)
    (h : UpdInv s0 b0 all c) : UpdInv s0 b0 (all ++ [b]) (update_byte c b) := by
  obtain ⟨hst, hbl, hbit, hlen, hbuf⟩ := h
  have hr : all.length % 64 < 64 := Nat.mod_lt _ (by decide)
  have hdm := Nat.div_add_mod all.length 64
  have hset : (c.m_data.set c.m_blocklen b).take (all.length % 64 + 1) =
      (all ++ [b]).drop (64 * (all.length / 64)) := by
    rw [List.drop_append_of_le_length (by omega), ← hbuf, hbl,
      take_set_succ _ _ _ (by omega)]
  have hl : (all ++ [b]).length = all.length + 1 := by simp
  by_cases hfull : all.length % 64 + 1 = 64
  · have hq : (all.length + 1) / 64 = all.length / 64 + 1 := by omega
    have hm : (all.length + 1) % 64 = 0 := by omega
    have hblk : c.m_data.set c.m_blocklen b = (all ++ [b]).drop (64 * (all.length / 64)) := by
      rw [← hset, hfull, List.take_of_length_le (by simp [hlen])]
    have hc : (c.m_blocklen + 1) % 2 ^ 32 = 64 := by omega
    simp only [update_byte, hc, if_true, transform_blockStep]
    refine ⟨?_, ?_, ?_, ?_, ?_⟩
    · simp only [hl, hq, specBlocks]
      rw [blocksAux_add, List.foldl_append, blocksAux_append_left _ _ _ (by omega),
        blocksAux_one _ (by simp; omega), hblk, hst]
      rfl
    · simp [hl, hm]
    · simp only [hl, hq, hbit]; omega
    · simp [hlen]
    · simp only [hl, hq, hm, List.take_zero]
      rw [List.drop_of_length_le (by simp; omega)]
  · have hq : (all.length + 1) / 64 = all.length / 64 := by omega
    have hm : (all.length + 1) % 64 = all.length % 64 + 1 := by omega
    have hc : ¬ (c.m_blocklen + 1) % 2 ^ 32 = 64 := by omega
    simp only [update_byte, hc, if_false]
    refine ⟨?_, ?_, ?_, ?_, ?_⟩
    · simp only [hl, hq, specBlocks]
      rw [blocksAux_append_left _ _ _ (by omega), hst]
      rfl
    · simp only [hl, hm]; omega
    · simp only [hl, hq, hbit]
    · simp [hlen]
    · simp only [hl, hq, hm]; exact hset

theorem updInv_update (s0 : List Nat) (b0 : Nat) (data all : List Nat) (c : Ctx)
    (h : UpdInv s0 b0 all c) : UpdInv s0 b0 (all ++ data) (sha256_update c data) := by
  induction data generalizing all c with
  | nil => simpa [sha256_update] using h
  | cons b data ih =>
    have := ih (all ++ [b]) (update_byte c b) (updInv_step s0 b0 all c b h)
    simpa [sha256_update] using this

theorem init_state (ctx : Ctx) (hs : ctx.m_state.length = 8) :
    (sha256_init ctx).m_state = specIV := by
  obtain ⟨a, b, c, d, e, f, g, k, hst⟩ := length_eight _ hs
  simp [sha256_init, hst, specIV]

theorem updInv_init (ctx : Ctx) (hs : ctx.m_state.length = 8) (hd : ctx.m_data.length = 64) :
    UpdInv specIV 0 [] (sha256_init ctx) := by
  refine ⟨?_, ?_, ?_, ?_, ?_⟩
  · rw [init_state ctx hs]; rfl
  · rfl
  · rfl
  · exact hd
  · rfl

/-! ## The function `pad` -/

theorem zero_loop (n a : Nat) (l : List Nat) (h : a + n ≤ l.length) :
    (List.range' a n).foldl (fun d k => d.set k 0) l =
      l.take a ++ List.replicate n 0 ++ l.drop (a + n) := by
  induction n generalizing a l with
  | zero => simp
  | succ n ih =>
    rw [List.range'_succ, List.foldl_cons, ih (a + 1) _ (by simp; omega),
      take_set_succ _ _ _ (by omega), List.drop_set_of_lt _ _ (by omega)]
    simp [List.replicate_succ]
    congr 1; omega

theorem set_length_field (X Y : List Nat) (hX : X.length = 56) (hY : Y.length = 8)
    (v0 v1 v2 v3 v4 v5 v6 v7 : Nat) :
    ((((((((X ++ Y).set 63 v7).set 62 v6).set 61 v5).set 60 v4).set 59 v3).set 58 v2).set 57
      v1).set 56 v0 = X ++ [v0, v1, v2, v3, v4, v5, v6, v7] := by
  obtain ⟨a, b, c, d, e, f, g, k, hst⟩ := length_eight _ hY
  subst hst
  have e : ∀ j, 56 + j = X.length + j := fun j => by rw [hX]
  rw [show 63 = X.length + 7 from (e 7), show 62 = X.length + 6 from e 6,
    show 61 = X.length + 5 from e 5, show 60 = X.length + 4 from e 4,
    show 59 = X.length + 3 from e 3, show 58 = X.length + 2 from e 2,
    show 57 = X.length + 1 from e 1, show 56 = X.length + 0 from e 0]
  simp [List.set_append_right]

theorem specBe64_mod (x : Nat) : specBe64 (x % 2 ^ 64) = specBe64 x := by
  simp only [specBe64]
  simp only [List.cons.injEq, and_true]
  refine ⟨?_, ?_, ?_, ?_, ?_, ?_, ?_, ?_⟩ <;> omega

theorem pad_bits (bits : Nat) :
    [(bits >>> 56) % 256, (bits >>> 48) % 256, (bits >>> 40) % 256, (bits >>> 32) % 256,
      (bits >>> 24) % 256, (bits >>> 16) % 256, (bits >>> 8) % 256, bits % 256] =
    specBe64 bits := by
  simp only [specBe64, Nat.shiftRight_eq_div_pow]

theorem pad_short (c : Ctx) (hd : c.m_data.length = 64) (hL : c.m_blocklen < 56) :
    pad c =
      { m_data := c.m_data.take c.m_blocklen ++ [0x80] ++
          List.replicate (55 - c.m_blocklen) 0 ++ specBe64 (c.m_bitlen + 8 * c.m_blocklen)
        m_blocklen := c.m_blocklen
        m_bitlen := (c.m_bitlen + 8 * c.m_blocklen) % 2 ^ 64
        m_state := blockStep c.m_state (c.m_data.take c.m_blocklen ++ [0x80] ++
          List.replicate (55 - c.m_blocklen) 0 ++ specBe64 (c.m_bitlen + 8 * c.m_blocklen)) } := by
  have hfill : (List.range' (c.m_blocklen + 1) (56 - (c.m_blocklen + 1))).foldl
      (fun d k => d.set k 0) (c.m_data.set c.m_blocklen 0x80) =
      (c.m_data.take c.m_blocklen ++ [0x80] ++ List.replicate (55 - c.m_blocklen) 0) ++
        c.m_data.drop 56 := by
    rw [zero_loop _ _ _ (by simp; omega), take_set_succ _ _ _ (by omega),
      List.drop_set_of_lt _ _ (by omega)]
    have e1 : 56 - (c.m_blocklen + 1) = 55 - c.m_blocklen := by omega
    have e2 : c.m_blocklen + 1 + (55 - c.m_blocklen) = 56 := by omega
    rw [e1, e2]
  have hb : (c.m_bitlen + (c.m_blocklen * 8) % 2 ^ 32) % 2 ^ 64 =
      (c.m_bitlen + 8 * c.m_blocklen) % 2 ^ 64 := by omega
  have hn : ¬ c.m_blocklen ≥ 56 := by omega
  simp only [pad, hL, hn, if_true, if_false, hfill, hb, transform_blockStep]
  rw [set_length_field _ _ (by simp; omega) (by simp; omega), pad_bits, specBe64_mod]

theorem pad_long (c : Ctx) (hd : c.m_data.length = 64) (hL : 56 ≤ c.m_blocklen)
    (hL' : c.m_blocklen < 64) :
    pad c =
      { m_data := List.replicate 56 0 ++ specBe64 (c.m_bitlen + 8 * c.m_blocklen)
        m_blocklen := c.m_blocklen
        m_bitlen := (c.m_bitlen + 8 * c.m_blocklen) % 2 ^ 64
        m_state := blockStep (blockStep c.m_state (c.m_data.take c.m_blocklen ++ [0x80] ++
          List.replicate (63 - c.m_blocklen) 0))
          (List.replicate 56 0 ++ specBe64 (c.m_bitlen + 8 * c.m_blocklen)) } := by
  have hfill : (List.range' (c.m_blocklen + 1) (64 - (c.m_blocklen + 1))).foldl
      (fun d k => d.set k 0) (c.m_data.set c.m_blocklen 0x80) =
      c.m_data.take c.m_blocklen ++ [0x80] ++ List.replicate (63 - c.m_blocklen) 0 := by
    rw [zero_loop _ _ _ (by simp; omega), take_set_succ _ _ _ (by omega),
      List.drop_of_length_le (by simp; omega)]
    have e1 : 64 - (c.m_blocklen + 1) = 63 - c.m_blocklen := by omega
    rw [e1, List.append_nil]
  have hb : (c.m_bitlen + (c.m_blocklen * 8) % 2 ^ 32) % 2 ^ 64 =
      (c.m_bitlen + 8 * c.m_blocklen) % 2 ^ 64 := by omega
  have hn : ¬ c.m_blocklen < 56 := by omega
  have hge : c.m_blocklen ≥ 56 := hL
  simp only [pad, hn, hge, if_true, if_false, hfill, hb, transform_blockStep]
  rw [set_length_field _ _ (by simp) (by simp; omega), pad_bits, specBe64_mod]

theorem pad_eq (c : Ctx) (hd : c.m_data.length = 64) (hL : c.m_blocklen < 64) :
    (pad c).m_state = (specFinalBlocks (c.m_data.take c.m_blocklen)
        (c.m_bitlen + 8 * c.m_blocklen)).foldl blockStep c.m_state ∧
      (pad c).m_blocklen = c.m_blocklen ∧
      (pad c).m_bitlen = (c.m_bitlen + 8 * c.m_blocklen) % 2 ^ 64 ∧
      (pad c).m_data.length = 64 ∧
      (pad c).m_data.drop 56 = specBe64 (c.m_bitlen + 8 * c.m_blocklen) := by
  have htl : (c.m_data.take c.m_blocklen).length = c.m_blocklen := by simp; omega
  by_cases h : c.m_blocklen < 56
  · rw [pad_short c hd h]
    simp only [specFinalBlocks, htl, h, if_true, List.foldl_cons, List.foldl_nil, true_and]
    refine ⟨?_, ?_⟩
    · simp [specBe64]; omega
    · rw [List.drop_append_of_le_length (by simp; omega)]
      rw [List.drop_of_length_le (by simp; omega), List.nil_append]
  · rw [pad_long c hd (by omega) hL]
    simp only [specFinalBlocks, htl, h, if_false, List.foldl_cons, List.foldl_nil, true_and]
    refine ⟨?_, ?_⟩
    · simp [specBe64]
    · rw [List.drop_append_of_le_length (by simp)]
      rw [List.drop_of_length_le (by simp), List.nil_append]

/-! ## Padding against the specification -/

theorem specZeroCount_mod (n : Nat) : specZeroCount n = specZeroCount (n % 64) := by
  simp only [specZeroCount]
  congr 2
  funext k
  congr 1
  simp only [eq_iff_iff]
  omega

theorem specZeroCount_small : ∀ r, r < 64 →
    specZeroCount r = if r < 56 then 55 - r else 119 - r := by
  decide

theorem specZeroCount_eq (n : Nat) :
    specZeroCount n = if n % 64 < 56 then 55 - n % 64 else 119 - n % 64 := by
  rw [specZeroCount_mod, specZeroCount_small _ (Nat.mod_lt _ (by decide))]

theorem specFinalBlocks_congr (t : List Nat) (x y : Nat) (h : x % 2 ^ 64 = y % 2 ^ 64) :
    specFinalBlocks t x = specFinalBlocks t y := by
  have : specBe64 x = specBe64 y := by rw [← specBe64_mod x, h, specBe64_mod]
  simp only [specFinalBlocks, this]

theorem specBe64_length (x : Nat) : (specBe64 x).length = 8 := rfl

theorem specBlocks_pad (msg : List Nat) :
    specBlocks (specPad msg) =
      specBlocks msg ++ specFinalBlocks (msg.drop (64 * (msg.length / 64))) (8 * msg.length) := by
  have hdm := Nat.div_add_mod msg.length 64
  have hr : msg.length % 64 < 64 := Nat.mod_lt _ (by decide)
  have htl : (msg.drop (64 * (msg.length / 64))).length = msg.length % 64 := by
    simp; omega
  have hdrop : ∀ P : List Nat, (msg ++ P).drop (64 * (msg.length / 64)) =
      msg.drop (64 * (msg.length / 64)) ++ P := by
    intro P; rw [List.drop_append_of_le_length (by omega)]
  by_cases h : msg.length % 64 < 56
  · have hlen : (specPad msg).length = 64 * (msg.length / 64 + 1) := by
      simp [specPad, specZeroCount_eq, h, specBe64_length]; omega
    have hq : (specPad msg).length / 64 = msg.length / 64 + 1 := by rw [hlen]; omega
    rw [specBlocks, hq, blocksAux_add]
    simp only [specPad, List.append_assoc]
    rw [hdrop, blocksAux_append_left _ _ _ (by omega), blocksAux_one]
    · simp only [specBlocks, specFinalBlocks, htl, h, if_true, specZeroCount_eq,
        List.append_assoc]
    · simp [htl, specZeroCount_eq, h, specBe64_length]; omega
  · have hlen : (specPad msg).length = 64 * (msg.length / 64 + 2) := by
      simp [specPad, specZeroCount_eq, h, specBe64_length]; omega
    have hq : (specPad msg).length / 64 = msg.length / 64 + 2 := by rw [hlen]; omega
    have hz : List.replicate (119 - msg.length % 64) 0 =
        List.replicate (63 - msg.length % 64) 0 ++ List.replicate 56 0 := by
      rw [← List.replicate_add]; congr 1; omega
    rw [specBlocks, hq, blocksAux_add]
    simp only [specPad, List.append_assoc]
    rw [hdrop, blocksAux_append_left _ _ _ (by omega)]
    simp only [specZeroCount_eq, h, if_false, hz, List.append_assoc]
    have e1 : msg.drop (64 * (msg.length / 64)) ++ ([0x80] ++ (List.replicate
        (63 - msg.length % 64) 0 ++ (List.replicate 56 0 ++ specBe64 (8 * msg.length)))) =
        (msg.drop (64 * (msg.length / 64)) ++ [0x80] ++ List.replicate (63 - msg.length % 64) 0)
          ++ (List.replicate 56 0 ++ specBe64 (8 * msg.length)) := by
      simp only [List.append_assoc]
    rw [e1, show (2 : Nat) = 1 + 1 from rfl, blocksAux_add,
      blocksAux_append_left 1 _ _ (by simp [htl]; omega), blocksAux_one _ (by simp [htl]; omega),
      List.drop_left' (by simp [htl]; omega), blocksAux_one _ (by simp [specBe64_length])]
    simp only [specBlocks, specFinalBlocks, htl, h, if_false, List.append_assoc]
    rfl

theorem specCompress_length (st blk : List Nat) (h : st.length = 8) :
    (specCompress st blk).length = 8 := by
  simp [specCompress, Work.toList, h]

theorem blockStep_eq (st blk : List Nat) (hs : st.length = 8) (hb : ∀ b ∈ blk, b < 256) :
    blockStep st blk = specCompress st blk := by
  rw [blockStep, transform_eq _ hs hb]

theorem foldl_blockStep_eq (blocks : List (List Nat)) (st : List Nat) (hs : st.length = 8)
    (hb : ∀ blk ∈ blocks, ∀ b ∈ blk, b < 256) :
    blocks.foldl blockStep st = blocks.foldl specCompress st := by
  induction blocks generalizing st with
  | nil => rfl
  | cons blk blocks ih =>
    rw [List.foldl_cons, List.foldl_cons,
      blockStep_eq _ _ hs (hb blk (List.mem_cons_self _ _)),
      ih _ (specCompress_length _ _ hs) (fun b hb' => hb b (List.mem_cons_of_mem _ hb'))]

theorem specPad_bytes (msg : List Nat) (hm : ∀ b ∈ msg, b < 256) : ∀ b ∈ specPad msg, b < 256 := by
  intro b hb
  simp only [specPad, List.mem_append, List.mem_singleton, List.mem_replicate, specBe64,
    List.mem_cons, List.mem_nil_iff, or_false] at hb
  rcases hb with ((h | h) | h) | h
  · exact hm b h
  · omega
  · omega
  · rcases h with h | h | h | h | h | h | h | h <;> omega

theorem pad_update_state (ctx : Ctx) (hs : ctx.m_state.length = 8)
    (hd : ctx.m_data.length = 64) (msg : List Nat) :
    (pad (sha256_update (sha256_init ctx) msg)).m_state =
      (specBlocks (specPad msg)).foldl blockStep specIV := by
  have inv := updInv_update specIV 0 msg [] _ (updInv_init ctx hs hd)
  rw [List.nil_append] at inv
  have hr : msg.length % 64 < 64 := Nat.mod_lt _ (by decide)
  have hp := (pad_eq _ inv.len (by rw [inv.blocklen]; exact hr)).1
  rw [hp, inv.state, specBlocks_pad, List.foldl_append, inv.blocklen, inv.buf, inv.bitlen]
  rw [specFinalBlocks_congr _ _ (8 * msg.length) (by omega)]

/-! ## The functions `revert` and `sha256_toString` -/

theorem length_thirtytwo (s : List Nat) (h : s.length = 32) :
    ∃ a0 a1 a2 a3 a4 a5 a6 a7 a8 a9 a10 a11 a12 a13 a14 a15 a16 a17 a18 a19 a20 a21 a22 a23 a24
      a25 a26 a27 a28 a29 a30 a31, s = [a0, a1, a2, a3, a4, a5, a6, a7, a8, a9, a10, a11, a12,
        a13, a14, a15, a16, a17, a18, a19, a20, a21, a22, a23, a24, a25, a26, a27, a28, a29, a30,
        a31] := by
  match s, h with
  | [a0, a1, a2, a3, a4, a5, a6, a7, a8, a9, a10, a11, a12, a13, a14, a15, a16, a17, a18, a19,
      a20, a21, a22, a23, a24, a25, a26, a27, a28, a29, a30, a31], _ =>
    exact ⟨a0, a1, a2, a3, a4, a5, a6, a7, a8, a9, a10, a11, a12, a13, a14, a15, a16, a17, a18,
      a19, a20, a21, a22, a23, a24, a25, a26, a27, a28, a29, a30, a31, rfl⟩

theorem revert_eq (ctx : Ctx) (hash : List Nat) (hh : 32 ≤ hash.length) :
    (revert ctx hash).2 =
      (List.range 8).flatMap (fun j =>
        [(ctx.m_state.getD j 0 >>> 24) &&& 0xff, (ctx.m_state.getD j 0 >>> 16) &&& 0xff,
          (ctx.m_state.getD j 0 >>> 8) &&& 0xff, (ctx.m_state.getD j 0 >>> 0) &&& 0xff]) ++
        hash.drop 32 := by
  obtain ⟨a0, a1, a2, a3, a4, a5, a6, a7, a8, a9, a10, a11, a12, a13, a14, a15, a16, a17, a18,
      a19, a20, a21, a22, a23, a24, a25, a26, a27, a28, a29, a30, a31, hA⟩ :=
    length_thirtytwo (hash.take 32) (by simp; omega)
  have hr4 : List.range 4 = [0, 1, 2, 3] := by decide
  have hr8 : List.range 8 = [0, 1, 2, 3, 4, 5, 6, 7] := by decide
  conv_lhs => rw [← List.take_append_drop 32 hash, hA]
  generalize hash.drop 32 = B
  simp only [revert, hr4, hr8, List.foldl_cons, List.foldl_nil, List.cons_append, List.nil_append,
    List.set_cons_zero, List.set_cons_succ, Nat.reduceAdd, Nat.reduceMul, Nat.reduceSub,
    List.flatMap, List.map_cons, List.map_nil, List.flatten, List.append_nil]

theorem toString_eq (hashstr digest : List Nat) :
    sha256_toString hashstr digest =
      (List.range 32).flatMap (fun i =>
        [hex_chars.getD ((digest.getD i 0 &&& 0xF0) >>> 4) 0,
          hex_chars.getD ((digest.getD i 0 &&& 0x0F) >>> 0) 0]) ++ [0] ++ hashstr.drop 65 := by
  have hr : List.range 32 = [0, 1, 2, 3, 4, 5, 6, 7, 8, 9, 10, 11, 12, 13, 14, 15, 16, 17, 18,
    19, 20, 21, 22, 23, 24, 25, 26, 27, 28, 29, 30, 31] := by decide
  simp only [sha256_toString, hr, List.foldl_cons, List.foldl_nil, List.cons_append,
    List.nil_append, List.replicate, List.set_cons_zero, List.set_cons_succ, Nat.reduceAdd,
    Nat.reduceMul, List.flatMap, List.map_cons, List.map_nil, List.flatten, List.append_nil, List.append_assoc, List.singleton_append]

/-! ## The specification's schedule and padding -/

theorem specExtend_getD_lt (m : List Nat) (j : Nat) (h : j < m.length) :
    (specExtend m).getD j 0 = m.getD j 0 := by
  simp only [specExtend, List.getD_eq_getElem?_getD, List.getElem?_append_left h]

theorem specExtend_getD_length (m : List Nat) :
    (specExtend m).getD m.length 0 =
      (sig1 (m.getD (m.length - 2) 0) + m.getD (m.length - 7) 0 +
        sig0 (m.getD (m.length - 15) 0) + m.getD (m.length - 16) 0) % 2 ^ 32 := by
  simp [specExtend, List.getD_eq_getElem?_getD]

theorem specExtend_iterate_getD_lt (n : Nat) (m0 : List Nat) (j : Nat) (h : j < m0.length) :
    (Nat.iterate specExtend n m0).getD j 0 = m0.getD j 0 := by
  induction n with
  | zero => rfl
  | succ n ih =>
    rw [Function.iterate_succ_apply',
      specExtend_getD_lt _ _ (by rw [specExtend_iterate_length]; omega), ih]

theorem specExtend_iterate_rec (n : Nat) (m0 : List Nat) (h0 : 16 ≤ m0.length) :
    ∀ k, m0.length ≤ k → k < m0.length + n →
      (Nat.iterate specExtend n m0).getD k 0 =
        (sig1 ((Nat.iterate specExtend n m0).getD (k - 2) 0) +
          (Nat.iterate specExtend n m0).getD (k - 7) 0 +
          sig0 ((Nat.iterate specExtend n m0).getD (k - 15) 0) +
          (Nat.iterate specExtend n m0).getD (k - 16) 0) % 2 ^ 32 := by
  induction n with
  | zero => intro k h1 h2; omega
  | succ n ih =>
    intro k h1 h2
    have hlen := specExtend_iterate_length n m0
    rw [Function.iterate_succ_apply']
    have lt : ∀ j, j < k → (specExtend (Nat.iterate specExtend n m0)).getD j 0 =
        (Nat.iterate specExtend n m0).getD j 0 :=
      fun j hj => specExtend_getD_lt _ _ (by omega)
    rw [lt _ (by omega : k - 2 < k), lt _ (by omega : k - 7 < k), lt _ (by omega : k - 15 < k),
      lt _ (by omega : k - 16 < k)]
    by_cases hk : k < m0.length + n
    · rw [specExtend_getD_lt _ _ (by omega), ih k h1 hk]
    · have e : k = (Nat.iterate specExtend n m0).length := by omega
      rw [e, specExtend_getD_length]

theorem specSchedule_rec (d : List Nat) (k : Nat) (h1 : 16 ≤ k) (h2 : k < 64) :
    (specSchedule d).getD k 0 =
      (sig1 ((specSchedule d).getD (k - 2) 0) + (specSchedule d).getD (k - 7) 0 +
        sig0 ((specSchedule d).getD (k - 15) 0) + (specSchedule d).getD (k - 16) 0) % 2 ^ 32 :=
  specExtend_iterate_rec 48 (specWords d) (by rw [specWords_length])
    k (by rw [specWords_length]; exact h1) (by rw [specWords_length]; omega)

theorem specSchedule_words (d : List Nat) (i : Nat) (h : i < 16) :
    (specSchedule d).getD i 0 = specBe32 (d.getD (4 * i) 0) (d.getD (4 * i + 1) 0)
      (d.getD (4 * i + 2) 0) (d.getD (4 * i + 3) 0) := by
  rw [specSchedule, specExtend_iterate_getD_lt _ _ _ (by rw [specWords_length]; exact h)]
  have hr : List.range 16 = [0, 1, 2, 3, 4, 5, 6, 7, 8, 9, 10, 11, 12, 13, 14, 15] := by decide
  simp only [specWords, hr, List.map_cons, List.map_nil]
  interval_cases i <;> rfl

theorem specZeroCount_least (n : Nat) :
    (n + 1 + specZeroCount n) % 64 = 56 ∧
      ∀ k, (n + 1 + k) % 64 = 56 → specZeroCount n ≤ k := by
  rw [specZeroCount_eq]
  constructor
  · split <;> omega
  · intro k hk; split <;> omega

theorem specPad_length (msg : List Nat) : (specPad msg).length % 64 = 0 := by
  have h := (specZeroCount_least msg.length).1
  simp [specPad, specBe64_length]
  omega

/-! ## Claims C1 and C2 -/

theorem word_bytes (w : Nat) :
    [(w >>> 24) &&& 0xff, (w >>> 16) &&& 0xff, (w >>> 8) &&& 0xff, (w >>> 0) &&& 0xff] =
      specWordBytes w := by
  have h : ∀ x : Nat, x &&& 0xff = x % 256 := fun x => Nat.and_pow_two_sub_one_eq_mod x 8
  simp only [specWordBytes, h, Nat.shiftRight_eq_div_pow, Nat.pow_zero, Nat.div_one]

theorem revert_bytes (ctx : Ctx) (hash : List Nat) (hs : ctx.m_state.length = 8)
    (hh : 32 ≤ hash.length) :
    (revert ctx hash).2 = ctx.m_state.flatMap specWordBytes ++ hash.drop 32 := by
  rw [revert_eq ctx hash hh]
  obtain ⟨a, b, c, d, e, f, g, k, hst⟩ := length_eight _ hs
  have hr8 : List.range 8 = [0, 1, 2, 3, 4, 5, 6, 7] := by decide
  simp only [hst, hr8, List.flatMap, List.map_cons, List.map_nil, List.getD_cons_zero,
    List.getD_cons_succ, word_bytes]

theorem specWordBytes_flatMap_length (s : List Nat) (hs : s.length = 8) :
    (s.flatMap specWordBytes).length = 32 := by
  obtain ⟨a, b, c, d, e, f, g, k, hst⟩ := length_eight _ hs
  rw [hst]; rfl

theorem foldl_specCompress_length (blocks : List (List Nat)) (st : List Nat)
    (hs : st.length = 8) : (blocks.foldl specCompress st).length = 8 := by
  induction blocks generalizing st with
  | nil => exact hs
  | cons blk blocks ih => exact ih _ (specCompress_length _ _ hs)

theorem specBlocks_bytes (L : List Nat) (hL : ∀ b ∈ L, b < 256) :
    ∀ blk ∈ specBlocks L, ∀ b ∈ blk, b < 256 :=
  fun _ hblk b hb => hL b (blocksAux_mem _ _ _ hblk b hb)

theorem pad_update_spec (ctx : Ctx) (hs : ctx.m_state.length = 8)
    (hd : ctx.m_data.length = 64) (msg : List Nat) (hm : ∀ b ∈ msg, b < 256) :
    (pad (sha256_update (sha256_init ctx) msg)).m_state =
      (specBlocks (specPad msg)).foldl specCompress specIV := by
  rw [pad_update_state ctx hs hd,
    foldl_blockStep_eq _ specIV rfl (specBlocks_bytes _ (specPad_bytes msg hm))]

theorem digest_spec (ctx : Ctx) (msg hash : List Nat) (hs : ctx.m_state.length = 8)
    (hd : ctx.m_data.length = 64) (hm : ∀ b ∈ msg, b < 256) (hh : 32 ≤ hash.length) :
    (sha256_digest (sha256_update (sha256_init ctx) msg) hash).2 =
      specSHA256 msg ++ hash.drop 32 := by
  have hst := pad_update_spec ctx hs hd msg hm
  rw [sha256_digest, revert_bytes _ _ (by rw [hst]; exact foldl_specCompress_length _ specIV rfl) hh,
    hst, specSHA256]

theorem specSHA256_length (msg : List Nat) : (specSHA256 msg).length = 32 :=
  specWordBytes_flatMap_length _ (foldl_specCompress_length _ specIV rfl)

theorem specBe64_decode (x : Nat) (hx : x < 2 ^ 64) :
    (specBe64 x).foldl (fun a b => a * 256 + b) 0 = x := by
  simp only [specBe64, List.foldl_cons, List.foldl_nil]
  omega

/-- C1: for every message of fewer than `2 ^ 61` bytes and every starting context,
`sha256_init`, `sha256_update msg`, `sha256_digest` write exactly 32 bytes into `hash`,
and they are the FIPS 180-4 digest `specSHA256 msg` (padding with `0x80`, the least
number of zero bytes reaching 56 mod 64 and the 64-bit big-endian bit length, the
compression function folded over the blocks from the IV, the words big-endian); the
rest of the buffer `hash` is untouched.  The length field of the padding holds the
true bit count `8 * |msg|`, the padded message is a whole number of blocks, and
`specZeroCount` is the least number of zero bytes reaching 56 mod 64. -/
theorem sha256_correct (ctx : Ctx) (msg hash : List Nat) (hs : ctx.m_state.length = 8)
    (hd : ctx.m_data.length = 64) (hm : ∀ b ∈ msg, b < 256) (hn : msg.length < 2 ^ 61)
    (hh : 32 ≤ hash.length) :
    ((sha256_digest (sha256_update (sha256_init ctx) msg) hash).2).take 32 = specSHA256 msg ∧
      ((sha256_digest (sha256_update (sha256_init ctx) msg) hash).2).drop 32 = hash.drop 32 ∧
      (specBe64 (8 * msg.length)).foldl (fun a b => a * 256 + b) 0 = 8 * msg.length ∧
      (specPad msg).length % 64 = 0 ∧
      (msg.length + 1 + specZeroCount msg.length) % 64 = 56 ∧
      (∀ k, (msg.length + 1 + k) % 64 = 56 → specZeroCount msg.length ≤ k) := by
  rw [digest_spec ctx msg hash hs hd hm hh]
  refine ⟨?_, ?_, ?_, specPad_length msg, specZeroCount_least msg.length⟩
  · rw [List.take_left' (specSHA256_length msg)]
  · rw [List.drop_left' (specSHA256_length msg)]
  · exact specBe64_decode _ (by omega)

theorem update_chunks (c : Ctx) (chunks : List (List Nat)) :
    chunks.foldl sha256_update c = sha256_update c chunks.flatten := by
  induction chunks generalizing c with
  | nil => rfl
  | cons d chunks ih =>
    rw [List.foldl_cons, ih, List.flatten_cons]
    simp only [sha256_update, List.foldl_append]

/-- C2: incremental equals monolithic.  For every list of chunks (empty chunks
allowed), `sha256_init` followed by one `sha256_update` per chunk leaves exactly the
context that a single `sha256_update` on the concatenation leaves, so `sha256_digest`
returns the same context and the same bytes. -/
theorem incremental_eq_monolithic (ctx : Ctx) (chunks : List (List Nat)) (hash : List Nat) :
    chunks.foldl sha256_update (sha256_init ctx) =
        sha256_update (sha256_init ctx) chunks.flatten ∧
      sha256_digest (chunks.foldl sha256_update (sha256_init ctx)) hash =
        sha256_digest (sha256_update (sha256_init ctx) chunks.flatten) hash := by
  rw [update_chunks]
  exact ⟨rfl, rfl⟩

/-! ## Claims C6, C9 and C10 -/

/-- C6: for every 8-word state and every buffer of bytes, `transform` replaces the
state by the compression `specCompress` of (state, buffer) of steps 1-5 (big-endian
words, the schedule recurrence, 64 rounds over `a..h`, the final element-wise sum,
every addition mod `2 ^ 32`) and leaves the buffer, `m_blocklen` and `m_bitlen`
unchanged.  The schedule `m = specSchedule buffer` has 64 words, `m[i]` for `i < 16`
is the big-endian word `i` of the buffer, and
`m[k] = sig1(m[k-2]) + m[k-7] + sig0(m[k-15]) + m[k-16]` for `16 ≤ k < 64`. -/
theorem transform_is_compression (ctx : Ctx) (hs : ctx.m_state.length = 8)
    (hd : ∀ b ∈ ctx.m_data, b < 256) :
    (transform ctx).m_state = specCompress ctx.m_state ctx.m_data ∧
      (transform ctx).m_data = ctx.m_data ∧
      (transform ctx).m_blocklen = ctx.m_blocklen ∧
      (transform ctx).m_bitlen = ctx.m_bitlen ∧
      (specSchedule ctx.m_data).length = 64 ∧
      (∀ i, i < 16 → (specSchedule ctx.m_data).getD i 0 =
        specBe32 (ctx.m_data.getD (4 * i) 0) (ctx.m_data.getD (4 * i + 1) 0)
          (ctx.m_data.getD (4 * i + 2) 0) (ctx.m_data.getD (4 * i + 3) 0)) ∧
      (∀ k, 16 ≤ k → k < 64 → (specSchedule ctx.m_data).getD k 0 =
        (sig1 ((specSchedule ctx.m_data).getD (k - 2) 0) +
          (specSchedule ctx.m_data).getD (k - 7) 0 +
          sig0 ((specSchedule ctx.m_data).getD (k - 15) 0) +
          (specSchedule ctx.m_data).getD (k - 16) 0) % 2 ^ 32) := by
  rw [transform_eq ctx hs hd]
  refine ⟨rfl, rfl, rfl, rfl, ?_, specSchedule_words _, specSchedule_rec _⟩
  rw [specSchedule, specExtend_iterate_length, specWords_length]

/-- C9: `sha256_init` discards all prior state.  From any two contexts (whatever
their state words, counters and buffer contents), `sha256_init`, `sha256_update msg`,
`sha256_digest` write the same 32 digest bytes, although `sha256_init` leaves the
buffer `m_data` as it was. -/
theorem init_discards_state (c1 c2 : Ctx) (msg hash1 hash2 : List Nat)
    (hs1 : c1.m_state.length = 8) (hd1 : c1.m_data.length = 64)
    (hs2 : c2.m_state.length = 8) (hd2 : c2.m_data.length = 64)
    (hh1 : 32 ≤ hash1.length) (hh2 : 32 ≤ hash2.length) :
    ((sha256_digest (sha256_update (sha256_init c1) msg) hash1).2).take 32 =
        ((sha256_digest (sha256_update (sha256_init c2) msg) hash2).2).take 32 ∧
      (sha256_init c1).m_data = c1.m_data ∧ (sha256_init c2).m_data = c2.m_data := by
  refine ⟨?_, rfl, rfl⟩
  have e1 := pad_update_state c1 hs1 hd1 msg
  have e2 := pad_update_state c2 hs2 hd2 msg
  have hlen : ∀ s : List Nat, ((List.range 8).flatMap (fun j =>
      [(s.getD j 0 >>> 24) &&& 0xff, (s.getD j 0 >>> 16) &&& 0xff,
        (s.getD j 0 >>> 8) &&& 0xff, (s.getD j 0 >>> 0) &&& 0xff])).length = 32 := by
    intro s
    have hr8 : List.range 8 = [0, 1, 2, 3, 4, 5, 6, 7] := by decide
    rw [hr8]; rfl
  simp only [sha256_digest]
  rw [revert_eq _ _ hh1, revert_eq _ _ hh2, e1, e2, List.take_left' (hlen _),
    List.take_left' (hlen _)]

theorem updInv_chunks (ctx : Ctx) (hs : ctx.m_state.length = 8) (hd : ctx.m_data.length = 64)
    (chunks : List (List Nat)) :
    UpdInv specIV 0 chunks.flatten (chunks.foldl sha256_update (sha256_init ctx)) := by
  rw [update_chunks]
  have := updInv_update specIV 0 chunks.flatten [] _ (updInv_init ctx hs hd)
  rwa [List.nil_append] at this

/-- C10: bit-length accounting.  After `sha256_init` and the chunks of a message of
`n < 2 ^ 61` bytes, `m_blocklen = n % 64` and `m_bitlen = 512 * (n / 64)`, so that
`m_bitlen + 8 * m_blocklen = 8 * n`; `pad` then sets `m_bitlen` to `8 * n` and
leaves its 8-byte big-endian encoding in `m_data[56..64)`. -/
theorem bit_length_accounting (ctx : Ctx) (chunks : List (List Nat))
    (hs : ctx.m_state.length = 8) (hd : ctx.m_data.length = 64)
    (hn : chunks.flatten.length < 2 ^ 61) :
    (chunks.foldl sha256_update (sha256_init ctx)).m_blocklen = chunks.flatten.length % 64 ∧
      (chunks.foldl sha256_update (sha256_init ctx)).m_bitlen =
        512 * (chunks.flatten.length / 64) ∧
      (chunks.foldl sha256_update (sha256_init ctx)).m_bitlen +
          8 * (chunks.foldl sha256_update (sha256_init ctx)).m_blocklen =
        8 * chunks.flatten.length ∧
      (pad (chunks.foldl sha256_update (sha256_init ctx))).m_bitlen =
        8 * chunks.flatten.length ∧
      (pad (chunks.foldl sha256_update (sha256_init ctx))).m_data.length = 64 ∧
      (pad (chunks.foldl sha256_update (sha256_init ctx))).m_data.drop 56 =
        specBe64 (8 * chunks.flatten.length) ∧
      ((pad (chunks.foldl sha256_update (sha256_init ctx))).m_data.drop 56).foldl
        (fun a b => a * 256 + b) 0 = 8 * chunks.flatten.length := by
  have inv := updInv_chunks ctx hs hd chunks
  have hr : chunks.flatten.length % 64 < 64 := Nat.mod_lt _ (by decide)
  have hbl := inv.blocklen
  have hbit : (chunks.foldl sha256_update (sha256_init ctx)).m_bitlen =
      512 * (chunks.flatten.length / 64) := by rw [inv.bitlen]; omega
  have hsum : (chunks.foldl sha256_update (sha256_init ctx)).m_bitlen +
      8 * (chunks.foldl sha256_update (sha256_init ctx)).m_blocklen =
        8 * chunks.flatten.length := by rw [hbit, hbl]; omega
  obtain ⟨-, -, pbit, plen, pdrop⟩ := pad_eq _ inv.len (by rw [hbl]; exact hr)
  rw [hsum] at pbit pdrop
  refine ⟨hbl, hbit, hsum, ?_, plen, pdrop, ?_⟩
  · rw [pbit]; omega
  · rw [pdrop]; exact specBe64_decode _ (by omega)

/-! ## Claim C5 -/

theorem specBe64_bytes (x : Nat) : ∀ b ∈ specBe64 x, b < 256 := by
  intro b hb
  simp only [specBe64, List.mem_cons, List.mem_nil_iff, or_false] at hb
  rcases hb with h | h | h | h | h | h | h | h <;> omega

theorem final_block_bytes (t : List Nat) (n x : Nat) (ht : ∀ b ∈ t, b < 256) :
    ∀ b ∈ t ++ [0x80] ++ List.replicate n 0 ++ specBe64 x, b < 256 := by
  intro b hb
  simp only [List.mem_append, List.mem_singleton, List.mem_replicate] at hb
  rcases hb with ((h | h) | h) | h
  · exact ht b h
  · omega
  · omega
  · exact specBe64_bytes x b h

theorem first_block_bytes (t : List Nat) (n : Nat) (ht : ∀ b ∈ t, b < 256) :
    ∀ b ∈ t ++ [0x80] ++ List.replicate n 0, b < 256 := by
  intro b hb
  simp only [List.mem_append, List.mem_singleton, List.mem_replicate] at hb
  rcases hb with (h | h) | h
  · exact ht b h
  · omega
  · omega

theorem length_block_bytes (x : Nat) : ∀ b ∈ List.replicate 56 0 ++ specBe64 x, b < 256 := by
  intro b hb
  simp only [List.mem_append, List.mem_replicate] at hb
  rcases hb with h | h
  · omega
  · exact specBe64_bytes x b h

/-- C5: the padding rule.  From a context with `m_blocklen = L < 64`, `pad` leaves the
state equal to (i) for `L < 56` one compression with the block
`buffer[0..L) ++ [0x80] ++ zeros(55 - L) ++ be64(m_bitlen + 8 * L)`, (ii) for `L ≥ 56`
the compression with `buffer[0..L) ++ [0x80] ++ zeros(63 - L)` followed by the one
with `zeros(56) ++ be64(m_bitlen + 8 * L)`.  Messages of 55, 64, 119, 128 bytes take
branch (i), those of 56, 57, 63, 120 bytes branch (ii), and each yields the FIPS 180-4
digest. -/
theorem pad_rule (c : Ctx) (hs : c.m_state.length = 8) (hd : c.m_data.length = 64)
    (hb : ∀ b ∈ c.m_data, b < 256) (hL : c.m_blocklen < 64) :
    (c.m_blocklen < 56 → (pad c).m_state = specCompress c.m_state
        (c.m_data.take c.m_blocklen ++ [0x80] ++ List.replicate (55 - c.m_blocklen) 0 ++
          specBe64 (c.m_bitlen + 8 * c.m_blocklen))) ∧
      (56 ≤ c.m_blocklen → (pad c).m_state = specCompress
        (specCompress c.m_state
          (c.m_data.take c.m_blocklen ++ [0x80] ++ List.replicate (63 - c.m_blocklen) 0))
        (List.replicate 56 0 ++ specBe64 (c.m_bitlen + 8 * c.m_blocklen))) ∧
      ∀ (ctx : Ctx) (msg hash : List Nat), ctx.m_state.length = 8 → ctx.m_data.length = 64 →
        (∀ b ∈ msg, b < 256) → 32 ≤ hash.length →
        msg.length ∈ [55, 56, 57, 63, 64, 119, 120, 128] →
        ((sha256_update (sha256_init ctx) msg).m_blocklen < 56 ↔
            msg.length ∈ [55, 64, 119, 128]) ∧
          (56 ≤ (sha256_update (sha256_init ctx) msg).m_blocklen ↔
            msg.length ∈ [56, 57, 63, 120]) ∧
          ((sha256_digest (sha256_update (sha256_init ctx) msg) hash).2).take 32 =
            specSHA256 msg := by
  have ht : ∀ b ∈ c.m_data.take c.m_blocklen, b < 256 :=
    fun b h => hb b (List.mem_of_mem_take h)
  have htl : (c.m_data.take c.m_blocklen).length = c.m_blocklen := by
    rw [List.length_take]; omega
  have hp := (pad_eq c hd hL).1
  refine ⟨?_, ?_, ?_⟩
  · intro h
    simp only [specFinalBlocks, htl, h, if_true, List.foldl_cons, List.foldl_nil] at hp
    rw [hp, blockStep_eq _ _ hs (final_block_bytes _ _ _ ht)]
  · intro h
    have hn : ¬ c.m_blocklen < 56 := by omega
    simp only [specFinalBlocks, htl, hn, if_false, List.foldl_cons, List.foldl_nil] at hp
    rw [hp, blockStep_eq _ _ hs (first_block_bytes _ _ ht),
      blockStep_eq _ _ (specCompress_length _ _ hs) (length_block_bytes _)]
  · intro ctx msg hash hs' hd' hm hh hlen
    have inv := updInv_update specIV 0 msg [] _ (updInv_init ctx hs' hd')
    rw [List.nil_append] at inv
    rw [inv.blocklen, digest_spec ctx msg hash hs' hd' hm hh,
      List.take_left' (specSHA256_length msg)]
    simp only [List.mem_cons, List.mem_nil_iff, or_false] at hlen ⊢
    refine ⟨?_, ?_, trivial⟩ <;> omega

/-! ## Claim C7 -/

theorem be32_word_bytes (w : Nat) (hw : w < 2 ^ 32) :
    specBe32 ((w >>> 24) &&& 0xff) ((w >>> 16) &&& 0xff) ((w >>> 8) &&& 0xff)
      ((w >>> 0) &&& 0xff) = w := by
  have h : ∀ x : Nat, x &&& 0xff = x % 256 := fun x => Nat.and_pow_two_sub_one_eq_mod x 8
  simp only [specBe32, h, Nat.shiftRight_eq_div_pow, Nat.pow_zero, Nat.div_one]
  omega

theorem revert_getD (ctx : Ctx) (hash : List Nat) (hh : 32 ≤ hash.length) :
    ∀ j, j < 8 → ∀ i, i < 4 → (revert ctx hash).2.getD (4 * j + i) 0 =
      (ctx.m_state.getD j 0 >>> (24 - 8 * i)) &&& 0xff := by
  have hr8 : List.range 8 = [0, 1, 2, 3, 4, 5, 6, 7] := by decide
  rw [revert_eq ctx hash hh]
  simp only [hr8, List.flatMap, List.map_cons, List.map_nil, List.flatten, List.cons_append,
    List.nil_append, List.append_nil]
  intro j hj i hi
  interval_cases j <;> interval_cases i <;>
    simp only [Nat.reduceMul, Nat.reduceAdd, Nat.reduceSub, List.getD_cons_zero,
      List.getD_cons_succ]

/-- C7: digest extraction is big-endian per word and lossless.  For every state of 8
words below `2 ^ 32`, `revert` writes `hash[4 * j + i] = (state[j] >> (24 - 8 * i)) & 0xff`
for `j < 8`, `i < 4`; the big-endian value of each group of four output bytes is
`state[j]` again; the context is returned unchanged and the bytes of `hash` from
index 32 on are untouched. -/
theorem revert_big_endian (ctx : Ctx) (hash : List Nat) (hs : ctx.m_state.length = 8)
    (hw : ∀ w ∈ ctx.m_state, w < 2 ^ 32) (hh : 32 ≤ hash.length) :
    (∀ j, j < 8 → ∀ i, i < 4 → (revert ctx hash).2.getD (4 * j + i) 0 =
        (ctx.m_state.getD j 0 >>> (24 - 8 * i)) &&& 0xff) ∧
      (∀ j, j < 8 → specBe32 ((revert ctx hash).2.getD (4 * j) 0)
        ((revert ctx hash).2.getD (4 * j + 1) 0) ((revert ctx hash).2.getD (4 * j + 2) 0)
        ((revert ctx hash).2.getD (4 * j + 3) 0) = ctx.m_state.getD j 0) ∧
      (revert ctx hash).1 = ctx ∧
      (revert ctx hash).2.take 32 = ctx.m_state.flatMap specWordBytes ∧
      (revert ctx hash).2.drop 32 = hash.drop 32 := by
  have H := revert_getD ctx hash hh
  refine ⟨H, ?_, rfl, ?_, ?_⟩
  · intro j hj
    have h0 := H j hj 0 (by decide)
    have h1 := H j hj 1 (by decide)
    have h2 := H j hj 2 (by decide)
    have h3 := H j hj 3 (by decide)
    simp only [Nat.add_zero, Nat.mul_zero, Nat.mul_one, Nat.reduceMul, Nat.reduceSub,
      Nat.sub_zero] at h0 h1 h2 h3
    rw [h0, h1, h2, h3]
    have := be32_word_bytes _ (getD_lt_of_forall ctx.m_state (2 ^ 32) j (by decide) hw)
    simpa using this
  · rw [revert_bytes ctx hash hs hh, List.take_left' (specWordBytes_flatMap_length _ hs)]
  · rw [revert_bytes ctx hash hs hh, List.drop_left' (specWordBytes_flatMap_length _ hs)]

/-! ## The hexadecimal encoding -/

theorem hex_chars_eq : hex_chars = "0123456789abcdef".toList.map Char.toNat := rfl

set_option maxRecDepth 100000 in
theorem nibble_hi : ∀ b, b < 256 → (b &&& 0xF0) >>> 4 = b / 16 := by decide

theorem nibble_lo (b : Nat) : (b &&& 0x0F) >>> 0 = b % 16 :=
  Nat.and_pow_two_sub_one_eq_mod b 4

theorem hexVal_hex : ∀ h, h < 16 → specHexVal (hex_chars.getD h 0) = h := by decide

theorem hex_mem : ∀ h, h < 16 → hex_chars.getD h 0 ∈ hex_chars := by decide

theorem toString_nibbles (hashstr d : List Nat) (hb : ∀ b ∈ d, b < 256) :
    sha256_toString hashstr d =
      (List.range 32).flatMap (fun i =>
        [hex_chars.getD (d.getD i 0 / 16) 0, hex_chars.getD (d.getD i 0 % 16) 0]) ++ [0] ++
        hashstr.drop 65 := by
  have g : ∀ i, d.getD i 0 < 256 := fun i => getD_lt_of_forall d 256 i (by decide) hb
  rw [toString_eq]
  congr 3
  funext i
  rw [nibble_hi _ (g i), nibble_lo]

theorem toString_decode (hashstr d : List Nat) (hd : d.length = 32)
    (hb : ∀ b ∈ d, b < 256) : specHexDecode ((sha256_toString hashstr d).take 64) = d := by
  have g : ∀ i, d.getD i 0 < 256 := fun i => getD_lt_of_forall d 256 i (by decide) hb
  have hv : ∀ b, b < 256 →
      16 * specHexVal (hex_chars.getD (b / 16) 0) + specHexVal (hex_chars.getD (b % 16) 0) = b := by
    intro b hb
    rw [hexVal_hex _ (by omega), hexVal_hex _ (by omega)]; omega
  have hr : List.range 32 = [0, 1, 2, 3, 4, 5, 6, 7, 8, 9, 10, 11, 12, 13, 14, 15, 16, 17, 18,
    19, 20, 21, 22, 23, 24, 25, 26, 27, 28, 29, 30, 31] := by decide
  rw [toString_nibbles hashstr d hb, List.append_assoc, List.take_left' (by rw [hr]; rfl)]
  obtain ⟨a0, a1, a2, a3, a4, a5, a6, a7, a8, a9, a10, a11, a12, a13, a14, a15, a16, a17, a18,
      a19, a20, a21, a22, a23, a24, a25, a26, a27, a28, a29, a30, a31, hA⟩ :=
    length_thirtytwo d hd
  subst hA
  simp only [List.mem_cons, List.mem_nil_iff, or_false, forall_eq_or_imp, forall_eq] at hb
  simp only [hr, List.flatMap, List.map_cons, List.map_nil, List.flatten, List.cons_append,
    List.nil_append, List.append_nil, List.getD_cons_zero, List.getD_cons_succ, specHexDecode]
  obtain ⟨h0, h1, h2, h3, h4, h5, h6, h7, h8, h9, h10, h11, h12, h13, h14, h15, h16, h17, h18,
    h19, h20, h21, h22, h23, h24, h25, h26, h27, h28, h29, h30, h31⟩ := hb
  rw [hv _ h0, hv _ h1, hv _ h2, hv _ h3, hv _ h4, hv _ h5, hv _ h6, hv _ h7, hv _ h8, hv _ h9,
    hv _ h10, hv _ h11, hv _ h12, hv _ h13, hv _ h14, hv _ h15, hv _ h16, hv _ h17, hv _ h18,
    hv _ h19, hv _ h20, hv _ h21, hv _ h22, hv _ h23, hv _ h24, hv _ h25, hv _ h26, hv _ h27,
    hv _ h28, hv _ h29, hv _ h30, hv _ h31]

theorem toString_getD (hashstr d : List Nat) (hb : ∀ b ∈ d, b < 256) :
    (∀ i, i < 32 →
      (sha256_toString hashstr d).getD (2 * i) 0 = hex_chars.getD (d.getD i 0 / 16) 0 ∧
      (sha256_toString hashstr d).getD (2 * i + 1) 0 = hex_chars.getD (d.getD i 0 % 16) 0) ∧
    (sha256_toString hashstr d).getD 64 0 = 0 := by
  have hr : List.range 32 = [0, 1, 2, 3, 4, 5, 6, 7, 8, 9, 10, 11, 12, 13, 14, 15, 16, 17, 18,
    19, 20, 21, 22, 23, 24, 25, 26, 27, 28, 29, 30, 31] := by decide
  rw [toString_nibbles hashstr d hb]
  simp only [hr, List.flatMap, List.map_cons, List.map_nil, List.flatten, List.cons_append,
    List.nil_append, List.append_nil]
  refine ⟨?_, ?_⟩
  · intro i hi
    interval_cases i <;>
      simp only [Nat.reduceMul, Nat.reduceAdd, List.getD_cons_zero, List.getD_cons_succ,
        and_self]
  · simp only [List.getD_cons_zero, List.getD_cons_succ]

/-! ## Independence of the starting buffers -/

theorem takeWhile_append_zero (X R : List Nat) :
    (X ++ 0 :: R).takeWhile (fun b => b != 0) = X.takeWhile (fun b => b != 0) := by
  induction X with
  | nil => simp
  | cons x X ih =>
    by_cases hx : x = 0
    · subst hx; simp
    · simp [List.takeWhile_cons, hx, ih]

theorem toString_take (hashstr d : List Nat) :
    sha256_toString hashstr d = sha256_toString [] (d.take 32) ++ hashstr.drop 65 := by
  have hr : List.range 32 = [0, 1, 2, 3, 4, 5, 6, 7, 8, 9, 10, 11, 12, 13, 14, 15, 16, 17, 18,
    19, 20, 21, 22, 23, 24, 25, 26, 27, 28, 29, 30, 31] := by decide
  have g : ∀ i, i < 32 → (d.take 32).getD i 0 = d.getD i 0 := by
    intro i hi
    simp only [List.getD_eq_getElem?_getD, List.getElem?_take_of_lt hi]
  rw [toString_eq, toString_eq]
  simp only [hr, List.flatMap, List.map_cons, List.map_nil, List.flatten, List.cons_append,
    List.nil_append, List.append_nil, List.drop_nil, List.append_assoc]
  simp only [g _ (by decide : (0 : Nat) < 32), g 1 (by decide), g 2 (by decide),
    g 3 (by decide), g 4 (by decide), g 5 (by decide), g 6 (by decide), g 7 (by decide),
    g 8 (by decide), g 9 (by decide), g 10 (by decide), g 11 (by decide), g 12 (by decide),
    g 13 (by decide), g 14 (by decide), g 15 (by decide), g 16 (by decide), g 17 (by decide),
    g 18 (by decide), g 19 (by decide), g 20 (by decide), g 21 (by decide), g 22 (by decide),
    g 23 (by decide), g 24 (by decide), g 25 (by decide), g 26 (by decide), g 27 (by decide),
    g 28 (by decide), g 29 (by decide), g 30 (by decide), g 31 (by decide)]

theorem cString_toString (hashstr d : List Nat) :
    cString (sha256_toString hashstr d) = cString (sha256_toString [] (d.take 32)) := by
  rw [toString_take hashstr d]
  generalize d.take 32 = e
  rw [toString_eq]
  simp only [cString, List.drop_nil, List.append_nil, List.append_assoc, List.singleton_append,
    takeWhile_append_zero]

theorem codeBytes_length (s : List Nat) : ((List.range 8).flatMap (fun j =>
    [(s.getD j 0 >>> 24) &&& 0xff, (s.getD j 0 >>> 16) &&& 0xff,
      (s.getD j 0 >>> 8) &&& 0xff, (s.getD j 0 >>> 0) &&& 0xff])).length = 32 := by
  have hr8 : List.range 8 = [0, 1, 2, 3, 4, 5, 6, 7] := by decide
  rw [hr8]; rfl

theorem digest_take_indep (c1 c2 : Ctx) (msg hash1 hash2 : List Nat)
    (hs1 : c1.m_state.length = 8) (hd1 : c1.m_data.length = 64)
    (hs2 : c2.m_state.length = 8) (hd2 : c2.m_data.length = 64)
    (hh1 : 32 ≤ hash1.length) (hh2 : 32 ≤ hash2.length) :
    ((sha256_digest (sha256_update (sha256_init c1) msg) hash1).2).take 32 =
      ((sha256_digest (sha256_update (sha256_init c2) msg) hash2).2).take 32 := by
  have e1 := pad_update_state c1 hs1 hd1 msg
  have e2 := pad_update_state c2 hs2 hd2 msg
  simp only [sha256_digest]
  rw [revert_eq _ _ hh1, revert_eq _ _ hh2, e1, e2, List.take_left' (codeBytes_length _),
    List.take_left' (codeBytes_length _)]

theorem hexDigest_indep (ctx : Ctx) (hash hashstr msg : List Nat)
    (hs : ctx.m_state.length = 8) (hd : ctx.m_data.length = 64) (hh : 32 ≤ hash.length) :
    hexDigest ctx hash hashstr msg =
      hexDigest zeroCtx (List.replicate 32 0) (List.replicate 65 0) msg := by
  rw [hexDigest, hexDigest, cString_toString,
    cString_toString (List.replicate 65 0),
    digest_take_indep ctx zeroCtx msg hash (List.replicate 32 0) hs hd rfl rfl hh
      (by simp)]

theorem toString_length (hashstr d : List Nat) (hh : 65 ≤ hashstr.length) :
    (sha256_toString hashstr d).length = hashstr.length := by
  have hr : List.range 32 = [0, 1, 2, 3, 4, 5, 6, 7, 8, 9, 10, 11, 12, 13, 14, 15, 16, 17, 18,
    19, 20, 21, 22, 23, 24, 25, 26, 27, 28, 29, 30, 31] := by decide
  rw [toString_eq, hr]
  simp [List.flatMap]
  omega

/-! ## Claims C3, C4 and C8 -/

set_option maxRecDepth 1000000 in
set_option maxHeartbeats 4000000 in
theorem hexDigest_abc :
    hexDigest zeroCtx (List.replicate 32 0) (List.replicate 65 0) [0x61, 0x62, 0x63] =
      "ba7816bf8f01cfea414140de5dae2223b00361a396177a9cb410ff61f20015ad" := by
  rfl

set_option maxRecDepth 1000000 in
set_option maxHeartbeats 4000000 in
theorem hexDigest_empty :
    hexDigest zeroCtx (List.replicate 32 0) (List.replicate 65 0) [] =
      "e3b0c44298fc1c149afbf4c8996fb92427ae41e4649b934ca495991b7852b855" := by
  rfl

theorem toString_nil_length (e : List Nat) : (sha256_toString [] e).length = 65 := by
  have hr : List.range 32 = [0, 1, 2, 3, 4, 5, 6, 7, 8, 9, 10, 11, 12, 13, 14, 15, 16, 17, 18,
    19, 20, 21, 22, 23, 24, 25, 26, 27, 28, 29, 30, 31] := by decide
  rw [toString_eq, hr]
  simp [List.flatMap]

/-- C3: known answer.  From every context, `sha256_init`, `sha256_update` on the three
bytes 0x61 0x62 0x63, `sha256_digest` and `sha256_toString` leave in `hashstr` the
string ba7816bf8f01cfea414140de5dae2223b00361a396177a9cb410ff61f20015ad, and the
buffer `hashstr` keeps its length. -/
theorem abc_known_answer (ctx : Ctx) (hash hashstr : List Nat) (hs : ctx.m_state.length = 8)
    (hd : ctx.m_data.length = 64) (hh : 32 ≤ hash.length) (hhs : 65 ≤ hashstr.length) :
    cString (sha256_toString hashstr
        (sha256_digest (sha256_update (sha256_init ctx) [0x61, 0x62, 0x63]) hash).2) =
      "ba7816bf8f01cfea414140de5dae2223b00361a396177a9cb410ff61f20015ad" ∧
    (sha256_toString hashstr
      (sha256_digest (sha256_update (sha256_init ctx) [0x61, 0x62, 0x63]) hash).2).length =
        hashstr.length := by
  refine ⟨?_, toString_length _ _ hhs⟩
  have h := hexDigest_indep ctx hash hashstr [0x61, 0x62, 0x63] hs hd hh
  rw [hexDigest_abc] at h
  exact h

/-- C4, as stated, fails: from the all-zero globals the hexadecimal digest of the empty
message is not the 63-character string of the claim. -/
theorem empty_known_answer_counterexample :
    cString (sha256_toString (List.replicate 65 0)
        (sha256_digest (sha256_update (sha256_init zeroCtx) []) (List.replicate 32 0)).2) ≠
      "e3b0c44298fc1c149afbf4c8996fb92427ae41e4649b934ca495991b7852b85" := by
  have h := hexDigest_empty
  rw [hexDigest] at h
  rw [h]
  decide

/-- C4, amended: from every context, the digest of the empty byte sequence (with a
`sha256_update` of length 0, or with no update at all), rendered by `sha256_toString`,
is the 64-character string
e3b0c44298fc1c149afbf4c8996fb92427ae41e4649b934ca495991b7852b855. -/
theorem empty_known_answer (ctx : Ctx) (hash hashstr : List Nat) (hs : ctx.m_state.length = 8)
    (hd : ctx.m_data.length = 64) (hh : 32 ≤ hash.length) (hhs : 65 ≤ hashstr.length) :
    cString (sha256_toString hashstr
        (sha256_digest (sha256_update (sha256_init ctx) []) hash).2) =
      "e3b0c44298fc1c149afbf4c8996fb92427ae41e4649b934ca495991b7852b855" ∧
    cString (sha256_toString hashstr (sha256_digest (sha256_init ctx) hash).2) =
      "e3b0c44298fc1c149afbf4c8996fb92427ae41e4649b934ca495991b7852b855" ∧
    (sha256_toString hashstr (sha256_digest (sha256_init ctx) hash).2).length =
      hashstr.length := by
  have h := hexDigest_indep ctx hash hashstr [] hs hd hh
  rw [hexDigest_empty] at h
  exact ⟨h, h, toString_length _ _ hhs⟩

/-- C8: hex round trip.  For every 32-byte digest `d`, `sha256_toString` fills the
first 65 bytes of `hashstr` with 64 characters from `0123456789abcdef`, characters
`2 * i` and `2 * i + 1` being the high and low nibble of `d[i]`, followed by a zero
terminator, and leaves the rest of `hashstr` alone; decoding the 64 characters
pairwise as hexadecimal gives `d` back, so two digests with the same string are
equal. -/
theorem hex_round_trip (hashstr d : List Nat) (hd : d.length = 32) (hb : ∀ b ∈ d, b < 256)
    (hh : 65 ≤ hashstr.length) :
    (sha256_toString hashstr d).length = hashstr.length ∧
      (∀ k, k < 64 → (sha256_toString hashstr d).getD k 0 ∈
        "0123456789abcdef".toList.map Char.toNat) ∧
      (sha256_toString hashstr d).getD 64 0 = 0 ∧
      (sha256_toString hashstr d).drop 65 = hashstr.drop 65 ∧
      (∀ i, i < 32 →
        (sha256_toString hashstr d).getD (2 * i) 0 =
          ("0123456789abcdef".toList.map Char.toNat).getD (d.getD i 0 / 16) 0 ∧
        (sha256_toString hashstr d).getD (2 * i + 1) 0 =
          ("0123456789abcdef".toList.map Char.toNat).getD (d.getD i 0 % 16) 0) ∧
      specHexDecode ((sha256_toString hashstr d).take 64) = d ∧
      (∀ hashstr' d' : List Nat, d'.length = 32 → (∀ b ∈ d', b < 256) →
        (sha256_toString hashstr' d').take 64 = (sha256_toString hashstr d).take 64 →
        d' = d) := by
  have g : ∀ i, d.getD i 0 < 256 := fun i => getD_lt_of_forall d 256 i (by decide) hb
  obtain ⟨hget, hz⟩ := toString_getD hashstr d hb
  rw [← hex_chars_eq]
  refine ⟨toString_length _ _ hh, ?_, hz, ?_, hget, toString_decode hashstr d hd hb, ?_⟩
  · intro k hk
    obtain ⟨h0, h1⟩ := hget (k / 2) (by omega)
    rcases Nat.mod_two_eq_zero_or_one k with hm | hm
    · have e : 2 * (k / 2) = k := by omega
      rw [e] at h0
      rw [h0]
      exact hex_mem _ (by have := g (k / 2); omega)
    · have e : 2 * (k / 2) + 1 = k := by omega
      rw [e] at h1
      rw [h1]
      exact hex_mem _ (by omega)
  · rw [toString_take, List.drop_left' (toString_nil_length _)]
  · intro hashstr' d' hd' hb' he
    rw [← toString_decode hashstr' d' hd' hb', he, toString_decode hashstr d hd hb]

/-! ## Instances of the claims at concrete inputs -/

/-- Instance of `sha256_correct` on the message "abc", from a used context. -/
theorem sha256_correct_witness :
    usedCtx.m_state.length = 8 ∧ usedCtx.m_data.length = 64 ∧
      (∀ b ∈ [0x61, 0x62, 0x63], b < 256) ∧ [0x61, 0x62, 0x63].length < 2 ^ 61 ∧
      32 ≤ (List.replicate 40 7).length ∧
      ((sha256_digest (sha256_update (sha256_init usedCtx) [0x61, 0x62, 0x63])
        (List.replicate 40 7)).2).take 32 = specSHA256 [0x61, 0x62, 0x63] :=
  ⟨by decide, by decide, by decide, by decide, by decide,
    (sha256_correct usedCtx [0x61, 0x62, 0x63] (List.replicate 40 7) (by decide) (by decide)
      (by decide) (by decide) (by decide)).1⟩

/-- Instance of `abc_known_answer` from a used context and dirty output buffers. -/
theorem abc_known_answer_witness :
    usedCtx.m_state.length = 8 ∧ usedCtx.m_data.length = 64 ∧
      32 ≤ (List.replicate 32 9).length ∧ 65 ≤ (List.replicate 65 9).length ∧
      cString (sha256_toString (List.replicate 65 9)
        (sha256_digest (sha256_update (sha256_init usedCtx) [0x61, 0x62, 0x63])
          (List.replicate 32 9)).2) =
        "ba7816bf8f01cfea414140de5dae2223b00361a396177a9cb410ff61f20015ad" :=
  ⟨by decide, by decide, by decide, by decide,
    (abc_known_answer usedCtx (List.replicate 32 9) (List.replicate 65 9) (by decide)
      (by decide) (by decide) (by decide)).1⟩

/-- Instance of `empty_known_answer` from a used context and dirty output buffers. -/
theorem empty_known_answer_witness :
    usedCtx.m_state.length = 8 ∧ usedCtx.m_data.length = 64 ∧
      32 ≤ (List.replicate 32 9).length ∧ 65 ≤ (List.replicate 65 9).length ∧
      cString (sha256_toString (List.replicate 65 9)
        (sha256_digest (sha256_init usedCtx) (List.replicate 32 9)).2) =
        "e3b0c44298fc1c149afbf4c8996fb92427ae41e4649b934ca495991b7852b855" :=
  ⟨by decide, by decide, by decide, by decide,
    (empty_known_answer usedCtx (List.replicate 32 9) (List.replicate 65 9) (by decide)
      (by decide) (by decide) (by decide)).2.1⟩

/-- Instance of `pad_rule`: branch (i) on a context with 7 buffered bytes, and a 56-byte message. -/
theorem pad_rule_witness :
    usedCtx.m_state.length = 8 ∧ usedCtx.m_data.length = 64 ∧
      (∀ b ∈ usedCtx.m_data, b < 256) ∧ usedCtx.m_blocklen < 64 ∧
      (pad usedCtx).m_state = specCompress usedCtx.m_state
        (usedCtx.m_data.take usedCtx.m_blocklen ++ [0x80] ++
          List.replicate (55 - usedCtx.m_blocklen) 0 ++
          specBe64 (usedCtx.m_bitlen + 8 * usedCtx.m_blocklen)) ∧
      ((sha256_digest (sha256_update (sha256_init usedCtx) (List.replicate 56 0x61))
        (List.replicate 32 0)).2).take 32 = specSHA256 (List.replicate 56 0x61) :=
  ⟨by decide, by decide, by decide, by decide,
    (pad_rule usedCtx (by decide) (by decide) (by decide) (by decide)).1 (by decide),
    ((pad_rule usedCtx (by decide) (by decide) (by decide) (by decide)).2.2 usedCtx
      (List.replicate 56 0x61) (List.replicate 32 0) (by decide) (by decide) (by decide)
      (by decide) (by decide)).2.2⟩

/-- Instance of `transform_is_compression` on a used context. -/
theorem transform_is_compression_witness :
    usedCtx.m_state.length = 8 ∧ (∀ b ∈ usedCtx.m_data, b < 256) ∧
      (transform usedCtx).m_state = specCompress usedCtx.m_state usedCtx.m_data :=
  ⟨by decide, by decide, (transform_is_compression usedCtx (by decide) (by decide)).1⟩

/-- Instance of `revert_big_endian` on the state words 1..8. -/
theorem revert_big_endian_witness :
    usedCtx.m_state.length = 8 ∧ (∀ w ∈ usedCtx.m_state, w < 2 ^ 32) ∧
      32 ≤ (List.replicate 32 9).length ∧
      (revert usedCtx (List.replicate 32 9)).2.take 32 =
        usedCtx.m_state.flatMap specWordBytes :=
  ⟨by decide, by decide, by decide,
    (revert_big_endian usedCtx (List.replicate 32 9) (by decide) (by decide)
      (by decide)).2.2.2.1⟩

/-- Instance of `hex_round_trip` on the digest bytes 0..31. -/
theorem hex_round_trip_witness :
    (List.range 32).length = 32 ∧ (∀ b ∈ List.range 32, b < 256) ∧
      65 ≤ (List.replicate 65 9).length ∧
      specHexDecode ((sha256_toString (List.replicate 65 9) (List.range 32)).take 64) =
        List.range 32 :=
  ⟨by decide, by decide, by decide,
    (hex_round_trip (List.replicate 65 9) (List.range 32) (by decide) (by decide)
      (by decide)).2.2.2.2.2.1⟩

/-- Instance of `init_discards_state`: the all-zero globals against a used context. -/
theorem init_discards_state_witness :
    zeroCtx.m_state.length = 8 ∧ zeroCtx.m_data.length = 64 ∧
      usedCtx.m_state.length = 8 ∧ usedCtx.m_data.length = 64 ∧
      32 ≤ (List.replicate 32 0).length ∧ 32 ≤ (List.replicate 40 9).length ∧
      ((sha256_digest (sha256_update (sha256_init zeroCtx) [0x61, 0x62, 0x63])
        (List.replicate 32 0)).2).take 32 =
      ((sha256_digest (sha256_update (sha256_init usedCtx) [0x61, 0x62, 0x63])
        (List.replicate 40 9)).2).take 32 :=
  ⟨by decide, by decide, by decide, by decide, by decide, by decide,
    (init_discards_state zeroCtx usedCtx [0x61, 0x62, 0x63] (List.replicate 32 0)
      (List.replicate 40 9) (by decide) (by decide) (by decide) (by decide) (by decide)
      (by decide)).1⟩

/-- Instance of `bit_length_accounting` on 72 bytes fed in three chunks. -/
theorem bit_length_accounting_witness :
    usedCtx.m_state.length = 8 ∧ usedCtx.m_data.length = 64 ∧
      [[1, 2], [], List.replicate 70 3].flatten.length < 2 ^ 61 ∧
      (pad ([[1, 2], [], List.replicate 70 3].foldl sha256_update
        (sha256_init usedCtx))).m_bitlen = 8 * [[1, 2], [], List.replicate 70 3].flatten.length :=
  ⟨by decide, by decide, by decide,
    (bit_length_accounting usedCtx [[1, 2], [], List.replicate 70 3] (by decide) (by decide)
      (by decide)).2.2.2.1⟩

/-! ## Claims C11 and C12 -/

theorem specBlocksAux_eq_map (k : Nat) (l : List Nat) :
    specBlocksAux k l = (List.range k).map (fun i => (l.drop (64 * i)).take 64) := by
  induction k generalizing l with
  | zero => rfl
  | succ k ih =>
    rw [specBlocksAux, ih, List.range_succ_eq_map, List.map_cons, List.map_map]
    simp only [Nat.mul_zero, List.drop_zero, List.cons.injEq, true_and]
    apply List.map_congr_left
    intro i _
    simp only [Function.comp, List.drop_drop]
    congr 2
    omega

/-- C11: the chaining-value invariant.  After `sha256_init` and `sha256_update data`,
the state is the compression function folded from the IV over the first
`|data| / 64` consecutive 64-byte blocks of `data` (block `i` is
`data[64 * i .. 64 * i + 64)`), and `m_data[0..m_blocklen)` holds the remaining
`|data| % 64` bytes of `data` in order. -/
theorem chaining_value_invariant (ctx : Ctx) (data : List Nat) (hs : ctx.m_state.length = 8)
    (hd : ctx.m_data.length = 64) (hb : ∀ b ∈ data, b < 256) :
    (sha256_update (sha256_init ctx) data).m_state =
        ((List.range (data.length / 64)).map
          (fun i => (data.drop (64 * i)).take 64)).foldl specCompress specIV ∧
      (sha256_update (sha256_init ctx) data).m_blocklen = data.length % 64 ∧
      (sha256_update (sha256_init ctx) data).m_data.take
          (sha256_update (sha256_init ctx) data).m_blocklen =
        data.drop (64 * (data.length / 64)) ∧
      (data.drop (64 * (data.length / 64))).length = data.length % 64 := by
  have inv := updInv_update specIV 0 data [] _ (updInv_init ctx hs hd)
  rw [List.nil_append] at inv
  have hdm := Nat.div_add_mod data.length 64
  refine ⟨?_, inv.blocklen, ?_, ?_⟩
  · rw [inv.state, foldl_blockStep_eq _ specIV rfl (specBlocks_bytes _ hb), specBlocks,
      specBlocksAux_eq_map]
  · rw [inv.blocklen, inv.buf]
  · rw [List.length_drop]; omega

theorem pad_blocklen (c : Ctx) : (pad c).m_blocklen = c.m_blocklen := by
  simp only [pad, transform_blockStep]
  split <;> rfl

theorem update_byte_blocklen (c : Ctx) (b : Nat) (h : c.m_blocklen < 64) :
    (update_byte c b).m_blocklen < 64 := by
  simp only [update_byte]
  split
  · show 0 < 64
    decide
  · rename_i hne
    show (c.m_blocklen + 1) % 2 ^ 32 < 64
    have : (c.m_blocklen + 1) % 2 ^ 32 ≠ 64 := hne
    omega

theorem update_blocklen (c : Ctx) (data : List Nat) (h : c.m_blocklen < 64) :
    (sha256_update c data).m_blocklen < 64 := by
  induction data generalizing c with
  | nil => exact h
  | cons b data ih => exact ih (update_byte c b) (update_byte_blocklen c b h)

/-- C12: `m_blocklen` stays in `[0, 64)`.  It is 0 after `sha256_init`, and from every
context with `m_blocklen < 64`, `sha256_update` (for every data) and `sha256_digest`
leave a context with `m_blocklen < 64`. -/
theorem blocklen_in_range (ctx : Ctx) (h : ctx.m_blocklen < 64) :
    (∀ c : Ctx, (sha256_init c).m_blocklen = 0) ∧
      (∀ data : List Nat, (sha256_update ctx data).m_blocklen < 64) ∧
      (∀ hash : List Nat, (sha256_digest ctx hash).1.m_blocklen < 64) := by
  refine ⟨fun _ => rfl, fun data => update_blocklen ctx data h, fun hash => ?_⟩
  show (pad ctx).m_blocklen < 64
  rw [pad_blocklen]; exact h

/-! ## Claims C13 and C19 -/

/-- C13, as stated, fails: after `sha256_init`, `sha256_update` on three bytes and
`sha256_digest` (whose `pad` runs the compression function), `m_blocklen` is 3,
not 0. -/
theorem blocklen_reset_counterexample :
    (sha256_digest (sha256_update (sha256_init zeroCtx) [0x61, 0x62, 0x63])
      (List.replicate 32 0)).1.m_blocklen ≠ 0 := by
  show (pad (sha256_update (sha256_init zeroCtx) [0x61, 0x62, 0x63])).m_blocklen ≠ 0
  rw [pad_blocklen]
  decide

/-- C13, amended: `sha256_update` resets `m_blocklen` to 0 with every compression it
triggers (a byte that fills the block runs `transform` and leaves `m_blocklen = 0`; a
byte that does not fill it leaves the state alone), whereas `pad` leaves `m_blocklen`
as it was: when `sha256_digest` returns after a message of `n` bytes, `m_blocklen` is
`n % 64`. -/
theorem blocklen_reset_by_update (ctx : Ctx) (msg hash : List Nat)
    (hs : ctx.m_state.length = 8) (hd : ctx.m_data.length = 64) :
    (∀ (c : Ctx) (b : Nat), (c.m_blocklen + 1) % 2 ^ 32 = 64 →
        update_byte c b =
          { transform { c with m_data := c.m_data.set c.m_blocklen b, m_blocklen := 64 } with
            m_bitlen := (c.m_bitlen + 512) % 2 ^ 64, m_blocklen := 0 } ∧
        (update_byte c b).m_blocklen = 0) ∧
      (∀ (c : Ctx) (b : Nat), (c.m_blocklen + 1) % 2 ^ 32 ≠ 64 →
        (update_byte c b).m_state = c.m_state ∧
        (update_byte c b).m_blocklen = (c.m_blocklen + 1) % 2 ^ 32) ∧
      (∀ c : Ctx, (pad c).m_blocklen = c.m_blocklen) ∧
      (sha256_digest (sha256_update (sha256_init ctx) msg) hash).1.m_blocklen =
        msg.length % 64 := by
  refine ⟨?_, ?_, pad_blocklen, ?_⟩
  · intro c b h
    simp only [update_byte, h, if_true, transform_blockStep, and_self]
  · intro c b h
    simp only [update_byte, h, if_false, and_self]
  · have inv := updInv_update specIV 0 msg [] _ (updInv_init ctx hs hd)
    rw [List.nil_append] at inv
    show (pad _).m_blocklen = _
    rw [pad_blocklen, inv.blocklen]

theorem update_buffering (data : List Nat) (c : Ctx) (hd : c.m_data.length = 64)
    (h : c.m_blocklen + data.length < 64) :
    sha256_update c data =
      { c with
        m_data := c.m_data.take c.m_blocklen ++ data ++
          c.m_data.drop (c.m_blocklen + data.length)
        m_blocklen := c.m_blocklen + data.length } := by
  induction data generalizing c with
  | nil => simp [sha256_update]
  | cons b data ih =>
    simp only [List.length_cons] at h
    have hne : ¬ (c.m_blocklen + 1) % 2 ^ 32 = 64 := by omega
    have hm : (c.m_blocklen + 1) % 2 ^ 32 = c.m_blocklen + 1 := by omega
    have hne' : ¬ c.m_blocklen + 1 = 64 := by omega
    have hstep : update_byte c b =
        { c with m_data := c.m_data.set c.m_blocklen b, m_blocklen := c.m_blocklen + 1 } := by
      simp only [update_byte, hm, hne', if_false]
    have hlist : (c.m_data.set c.m_blocklen b).take (c.m_blocklen + 1) ++ data ++
        (c.m_data.set c.m_blocklen b).drop (c.m_blocklen + 1 + data.length) =
        c.m_data.take c.m_blocklen ++ b :: data ++
          c.m_data.drop (c.m_blocklen + (data.length + 1)) := by
      rw [take_set_succ _ _ _ (show c.m_blocklen < c.m_data.length by omega),
        List.drop_set_of_lt _ _ (show c.m_blocklen < c.m_blocklen + 1 + data.length by omega),
        show c.m_blocklen + 1 + data.length = c.m_blocklen + (data.length + 1) by omega]
      simp only [List.append_assoc, List.singleton_append, List.cons_append, List.nil_append]
    show sha256_update (update_byte c b) data = _
    rw [hstep, ih _ (by simp [hd]) (by simp only []; omega)]
    simp only [hlist, List.length_cons, Ctx.mk.injEq, true_and, and_true]
    omega

/-- C19: buffering without compression.  From a context with `m_blocklen = L` and data
of `n` bytes with `L + n < 64`, `sha256_update` leaves the state and `m_bitlen`
unchanged, sets `m_blocklen` to `L + n`, copies `data` into `m_data[L .. L + n)` in
order and leaves every other buffer byte unchanged; an update of length 0 leaves the
whole context unchanged. -/
theorem buffering_without_compression (c : Ctx) (data : List Nat)
    (hd : c.m_data.length = 64) (h : c.m_blocklen + data.length < 64) :
    (sha256_update c data).m_state = c.m_state ∧
      (sha256_update c data).m_bitlen = c.m_bitlen ∧
      (sha256_update c data).m_blocklen = c.m_blocklen + data.length ∧
      (sha256_update c data).m_data.length = 64 ∧
      (∀ i, i < data.length →
        (sha256_update c data).m_data.getD (c.m_blocklen + i) 0 = data.getD i 0) ∧
      (∀ j, j < c.m_blocklen ∨ c.m_blocklen + data.length ≤ j →
        (sha256_update c data).m_data.getD j 0 = c.m_data.getD j 0) ∧
      sha256_update c [] = c := by
  rw [update_buffering data c hd h]
  have hl : (c.m_data.take c.m_blocklen).length = c.m_blocklen := by
    rw [List.length_take]; omega
  refine ⟨rfl, rfl, rfl, ?_, ?_, ?_, rfl⟩
  · simp only [List.length_append, hl, List.length_drop]; omega
  · intro i hi
    simp only [List.append_assoc]
    rw [List.getD_append_right _ _ _ _ (by omega), hl, Nat.add_sub_cancel_left,
      List.getD_append _ _ _ _ hi]
  · intro j hj
    simp only [List.append_assoc]
    rcases hj with hj | hj
    · rw [List.getD_append _ _ _ _ (by omega)]
      simp only [List.getD_eq_getElem?_getD, List.getElem?_take_of_lt hj]
    · rw [List.getD_append_right _ _ _ _ (by omega), hl,
        List.getD_append_right _ _ _ _ (by omega)]
      simp only [List.getD_eq_getElem?_getD, List.getElem?_drop]
      congr 2
      omega

/-! ## Claims C17 and C20 -/

theorem revert_take (c : Ctx) (hash : List Nat) (hh : 32 ≤ hash.length) :
    (revert c hash).2.take 32 = (revert c (List.replicate 32 0)).2 := by
  rw [revert_eq c hash hh, revert_eq c (List.replicate 32 0) (by simp),
    List.take_left' (codeBytes_length _), List.drop_of_length_le (by simp), List.append_nil]

theorem pad_init_indep (ctx : Ctx) (hs : ctx.m_state.length = 8) (hd : ctx.m_data.length = 64) :
    pad (sha256_init ctx) = pad (sha256_init zeroCtx) := by
  have h1 := pad_short (sha256_init ctx) hd (by show 0 < 56; decide)
  have h2 := pad_short (sha256_init zeroCtx) rfl (by show 0 < 56; decide)
  rw [h1, h2, init_state ctx hs, init_state zeroCtx rfl]
  rfl

set_option maxRecDepth 1000000 in
set_option maxHeartbeats 4000000 in
theorem second_digest_differs :
    (revert (pad (pad (sha256_init zeroCtx))) (List.replicate 32 0)).2 ≠
      (revert (pad (sha256_init zeroCtx)) (List.replicate 32 0)).2 := by
  decide

/-- C20: finalization is not repeatable.  For the empty message, from every context, a
second `sha256_digest` right after the first (no `sha256_init` in between) writes 32
bytes different from the first digest: the first `pad` has folded its padding block(s)
into the state and added `8 * m_blocklen` to `m_bitlen`, and has left `m_blocklen` as
it was. -/
theorem finalization_not_repeatable (ctx c : Ctx) (hash : List Nat)
    (hs : ctx.m_state.length = 8) (hd : ctx.m_data.length = 64) (hh : 32 ≤ hash.length)
    (hcd : c.m_data.length = 64) (hcL : c.m_blocklen < 64) :
    ((sha256_digest (sha256_digest (sha256_init ctx) hash).1
        (sha256_digest (sha256_init ctx) hash).2).2).take 32 ≠
      ((sha256_digest (sha256_init ctx) hash).2).take 32 ∧
    (sha256_digest c hash).1.m_state =
      (specFinalBlocks (c.m_data.take c.m_blocklen)
        (c.m_bitlen + 8 * c.m_blocklen)).foldl blockStep c.m_state ∧
    (sha256_digest c hash).1.m_bitlen = (c.m_bitlen + 8 * c.m_blocklen) % 2 ^ 64 ∧
    (sha256_digest c hash).1.m_blocklen = c.m_blocklen := by
  obtain ⟨pst, pbl, pbit, -, -⟩ := pad_eq c hcd hcL
  refine ⟨?_, pst, pbit, pbl⟩
  have hlen : 32 ≤ (revert (pad (sha256_init ctx)) hash).2.length := by
    rw [revert_eq _ _ hh]
    simp only [List.length_append, codeBytes_length]
    omega
  simp only [sha256_digest]
  rw [revert_take _ _ hlen, revert_take _ _ hh, pad_init_indep ctx hs hd]
  exact second_digest_differs

/-- C17: `choose` and `majority` are the FIPS 180-4 selection functions on 32-bit
words.  `majority(a,b,c) = (a & b) ^ (a & c) ^ (b & c)`, and each of its bits is 1 iff
at least two of the three input bits are 1; each bit of `choose(e,f,g)` is the bit of
`f` where the bit of `e` is 1 and the bit of `g` where it is 0, so that the `^` in
`(e & f) ^ (~e & g)` can be read as `|`. -/
theorem choose_majority_standard (a b c e f g : Nat) (he : e < 2 ^ 32) (hg : g < 2 ^ 32) :
    majority a b c = (a &&& b) ^^^ (a &&& c) ^^^ (b &&& c) ∧
      (∀ i, (majority a b c).testBit i =
        decide (2 ≤ (a.testBit i).toNat + (b.testBit i).toNat + (c.testBit i).toNat)) ∧
      (∀ i, (choose e f g).testBit i = if e.testBit i then f.testBit i else g.testBit i) ∧
      choose e f g = (e &&& f) ||| ((0xffffffff ^^^ e) &&& g) := by
  have hmask : ∀ i, Nat.testBit 0xffffffff i = decide (i < 32) :=
    fun i => Nat.testBit_two_pow_sub_one 32 i
  have hhi : ∀ x, x < 2 ^ 32 → ∀ i, 32 ≤ i → x.testBit i = false := by
    intro x hx i hi
    exact Nat.testBit_lt_two_pow (lt_of_lt_of_le hx (Nat.pow_le_pow_right (by decide) hi))
  refine ⟨?_, ?_, ?_, ?_⟩
  · apply Nat.eq_of_testBit_eq
    intro i
    simp only [majority, Nat.testBit_and, Nat.testBit_or, Nat.testBit_xor]
    cases a.testBit i <;> cases b.testBit i <;> cases c.testBit i <;> rfl
  · intro i
    simp only [majority, Nat.testBit_and, Nat.testBit_or]
    cases a.testBit i <;> cases b.testBit i <;> cases c.testBit i <;> rfl
  · intro i
    simp only [choose, Nat.testBit_and, Nat.testBit_xor, hmask]
    by_cases hi : i < 32
    · simp only [hi, decide_True]
      cases e.testBit i <;> cases f.testBit i <;> cases g.testBit i <;> rfl
    · simp only [hi, decide_False, hhi e he i (by omega), hhi g hg i (by omega)]
      rfl
  · apply Nat.eq_of_testBit_eq
    intro i
    simp only [choose, Nat.testBit_and, Nat.testBit_or, Nat.testBit_xor, hmask]
    by_cases hi : i < 32
    · simp only [hi, decide_True]
      cases e.testBit i <;> cases f.testBit i <;> cases g.testBit i <;> rfl
    · simp only [hi, decide_False, hhi e he i (by omega)]
      rfl

/-! ## The primes and the fractional parts of their roots -/

theorem specIsPrime_iff (n : Nat) : specIsPrime n = true ↔ Nat.Prime n := by
  rw [Nat.prime_def_lt']
  simp only [specIsPrime, Bool.and_eq_true, decide_eq_true_eq, List.all_eq_true,
    List.mem_range'_1, bne_iff_ne, ne_eq, Nat.dvd_iff_mod_eq_zero]
  constructor
  · rintro ⟨h2, h⟩
    exact ⟨h2, fun m hm hlt => h m ⟨hm, by omega⟩⟩
  · rintro ⟨h2, h⟩
    exact ⟨h2, fun m hm => h m hm.1 (by omega)⟩

theorem specIsPrime_eq : (fun n => specIsPrime n = true) = Nat.Prime :=
  funext fun n => propext (specIsPrime_iff n)

theorem count_filter_getD (q : Nat → Bool) (N : Nat) :
    ∀ i, i < ((List.range N).filter q).length →
      Nat.count (fun n => q n = true) (((List.range N).filter q).getD i 0) = i := by
  induction N with
  | zero => intro i hi; simp at hi
  | succ N ih =>
    intro i hi
    rw [List.range_succ, List.filter_append] at hi ⊢
    by_cases hlt : i < ((List.range N).filter q).length
    · rw [List.getD_append _ _ _ _ hlt]
      exact ih i hlt
    · have hq : q N = true := by
        by_contra hq
        simp [hq] at hi
        omega
      have hi' : i = ((List.range N).filter q).length := by
        simp [hq] at hi
        omega
      rw [List.getD_append_right _ _ _ _ (by omega), hi']
      simp only [Nat.sub_self, List.filter_cons, hq, if_true, List.filter_nil,
        List.getD_cons_zero]
      rw [Nat.count, List.countP_eq_length_filter]
      congr 2
      funext n
      simp

set_option maxRecDepth 1000000 in
set_option maxHeartbeats 4000000 in
theorem specPrimes_length : specPrimes.length = 64 := by decide

theorem nth_prime (i : Nat) (hi : i < 64) : Nat.nth Nat.Prime i = specPrimes.getD i 0 := by
  have hlen : i < specPrimes.length := by rw [specPrimes_length]; exact hi
  have hc := count_filter_getD specIsPrime 312 i hlen
  have hmem : specPrimes.getD i 0 ∈ specPrimes := by
    rw [List.getD_eq_getElem _ _ hlen]
    exact List.getElem_mem _
  have hp : specIsPrime (specPrimes.getD i 0) = true := (List.mem_filter.1 hmem).2
  have := Nat.nth_count (p := fun n => specIsPrime n = true) hp
  rw [show (List.filter specIsPrime (List.range 312)) = specPrimes from rfl] at hc
  rw [hc, specIsPrime_eq] at this
  exact this

theorem root_unique (k p r1 r2 : Nat) (h1 : r1 ^ k ≤ p) (h1' : p < (r1 + 1) ^ k)
    (h2 : r2 ^ k ≤ p) (h2' : p < (r2 + 1) ^ k) : r1 = r2 := by
  rcases Nat.lt_trichotomy r1 r2 with h | h | h
  · have := Nat.pow_le_pow_left (show r1 + 1 ≤ r2 from h) k
    omega
  · exact h
  · have := Nat.pow_le_pow_left (show r2 + 1 ≤ r1 from h) k
    omega

theorem rootCheck_spec (k p s : Nat) (h : rootCheck k p s = true) (r : Nat)
    (hr : r ^ k ≤ p) (hr' : p < (r + 1) ^ k) :
    (r * 2 ^ 32 + s) ^ k ≤ p * 2 ^ (32 * k) ∧ p * 2 ^ (32 * k) < (r * 2 ^ 32 + s + 1) ^ k := by
  simp only [rootCheck, decide_eq_true_eq] at h
  obtain ⟨a, b, c, d⟩ := h
  rw [root_unique k p r _ hr hr' a b]
  exact ⟨c, d⟩

theorem all_zip_getD (f : Nat → Nat → Bool) (l1 l2 : List Nat)
    (h : (List.zip l1 l2).all (fun x => f x.1 x.2) = true) (i : Nat) (hi1 : i < l1.length)
    (hi2 : i < l2.length) : f (l1.getD i 0) (l2.getD i 0) = true := by
  induction l1 generalizing l2 i with
  | nil => simp at hi1
  | cons a l1 ih =>
    cases l2 with
    | nil => simp at hi2
    | cons b l2 =>
      simp only [List.zip_cons_cons, List.all_cons, Bool.and_eq_true] at h
      cases i with
      | zero => exact h.1
      | succ i =>
        simp only [List.length_cons, Nat.add_lt_add_iff_right] at hi1 hi2
        exact ih l2 h.2 i hi1 hi2

set_option maxRecDepth 1000000 in
set_option maxHeartbeats 4000000 in
theorem iv_check : (List.zip specPrimes specIV).all (fun x => rootCheck 2 x.1 x.2) = true := by
  decide

set_option maxRecDepth 1000000 in
set_option maxHeartbeats 4000000 in
theorem k_check : (List.zip specPrimes K).all (fun x => rootCheck 3 x.1 x.2) = true := by
  decide

/-! ## Claims C14 and C15 -/

theorem K_length : K.length = 64 := by decide

theorem K_words : ∀ k ∈ K, k < 2 ^ 32 := by decide

/-- C14: the round-constant table is the FIPS 180-4 table.  `K` has 64 entries (each
below `2 ^ 32`), and for `i < 64`, with `p` the `(i+1)`-th prime and `c` the integer
part of its cube root, `K[i]` is the first 32 bits of the fractional part of the cube
root of `p`: `(c * 2^32 + K[i])^3 ≤ p * 2^96 < (c * 2^32 + K[i] + 1)^3`. -/
theorem round_constants_standard (i : Nat) (hi : i < 64) (c : Nat)
    (h1 : c ^ 3 ≤ Nat.nth Nat.Prime i) (h2 : Nat.nth Nat.Prime i < (c + 1) ^ 3) :
    K.length = 64 ∧ K.getD i 0 < 2 ^ 32 ∧
      (c * 2 ^ 32 + K.getD i 0) ^ 3 ≤ Nat.nth Nat.Prime i * 2 ^ 96 ∧
      Nat.nth Nat.Prime i * 2 ^ 96 < (c * 2 ^ 32 + K.getD i 0 + 1) ^ 3 := by
  rw [nth_prime i hi] at h1 h2 ⊢
  have hc := all_zip_getD (rootCheck 3) specPrimes K k_check i
    (by rw [specPrimes_length]; exact hi) (by rw [K_length]; exact hi)
  have := rootCheck_spec 3 _ _ hc c h1 h2
  exact ⟨K_length, getD_lt_of_forall K (2 ^ 32) i (by decide) K_words, this⟩

/-- C15: the postcondition of `sha256_init`.  From every context it yields
`m_blocklen = 0`, `m_bitlen = 0` and the state 6a09e667 bb67ae85 3c6ef372 a54ff53a
510e527f 9b05688c 1f83d9ab 5be0cd19, and leaves the buffer unchanged.  For `i < 8`,
with `p` the `(i+1)`-th prime and `r` the integer part of its square root, the word
`state[i]` is the first 32 bits of the fractional part of the square root of `p`:
`(r * 2^32 + state[i])^2 ≤ p * 2^64 < (r * 2^32 + state[i] + 1)^2`. -/
theorem init_postcondition (ctx : Ctx) (hs : ctx.m_state.length = 8) (i : Nat) (hi : i < 8)
    (r : Nat) (h1 : r ^ 2 ≤ Nat.nth Nat.Prime i) (h2 : Nat.nth Nat.Prime i < (r + 1) ^ 2) :
    (sha256_init ctx).m_blocklen = 0 ∧ (sha256_init ctx).m_bitlen = 0 ∧
      (sha256_init ctx).m_state = [0x6a09e667, 0xbb67ae85, 0x3c6ef372, 0xa54ff53a,
        0x510e527f, 0x9b05688c, 0x1f83d9ab, 0x5be0cd19] ∧
      (sha256_init ctx).m_data = ctx.m_data ∧
      (r * 2 ^ 32 + (sha256_init ctx).m_state.getD i 0) ^ 2 ≤ Nat.nth Nat.Prime i * 2 ^ 64 ∧
      Nat.nth Nat.Prime i * 2 ^ 64 <
        (r * 2 ^ 32 + (sha256_init ctx).m_state.getD i 0 + 1) ^ 2 := by
  rw [nth_prime i (by omega)] at h1 h2 ⊢
  have hst := init_state ctx hs
  have hc := all_zip_getD (rootCheck 2) specPrimes specIV iv_check i
    (by rw [specPrimes_length]; omega) (by show i < 8; exact hi)
  have := rootCheck_spec 2 _ _ hc r h1 h2
  rw [hst]
  exact ⟨rfl, rfl, rfl, rfl, this⟩

theorem round_constants_standard_witness :
    0 < 64 ∧ 1 ^ 3 ≤ Nat.nth Nat.Prime 0 ∧ Nat.nth Nat.Prime 0 < (1 + 1) ^ 3 ∧
      (1 * 2 ^ 32 + K.getD 0 0) ^ 3 ≤ Nat.nth Nat.Prime 0 * 2 ^ 96 ∧
      Nat.nth Nat.Prime 0 * 2 ^ 96 < (1 * 2 ^ 32 + K.getD 0 0 + 1) ^ 3 :=
  ⟨by decide, by rw [Nat.nth_prime_zero_eq_two]; decide,
    by rw [Nat.nth_prime_zero_eq_two]; decide,
    (round_constants_standard 0 (by decide) 1 (by rw [Nat.nth_prime_zero_eq_two]; decide)
      (by rw [Nat.nth_prime_zero_eq_two]; decide)).2.2⟩

theorem init_postcondition_witness :
    usedCtx.m_state.length = 8 ∧ 1 < 8 ∧ 1 ^ 2 ≤ Nat.nth Nat.Prime 1 ∧
      Nat.nth Nat.Prime 1 < (1 + 1) ^ 2 ∧
      (sha256_init usedCtx).m_state = [0x6a09e667, 0xbb67ae85, 0x3c6ef372, 0xa54ff53a,
        0x510e527f, 0x9b05688c, 0x1f83d9ab, 0x5be0cd19] ∧
      (1 * 2 ^ 32 + (sha256_init usedCtx).m_state.getD 1 0) ^ 2 ≤
        Nat.nth Nat.Prime 1 * 2 ^ 64 :=
  ⟨by decide, by decide, by rw [Nat.nth_prime_one_eq_three]; decide,
    by rw [Nat.nth_prime_one_eq_three]; decide,
    (init_postcondition usedCtx (by decide) 1 (by decide) 1
      (by rw [Nat.nth_prime_one_eq_three]; decide)
      (by rw [Nat.nth_prime_one_eq_three]; decide)).2.2.1,
    (init_postcondition usedCtx (by decide) 1 (by decide) 1
      (by rw [Nat.nth_prime_one_eq_three]; decide)
      (by rw [Nat.nth_prime_one_eq_three]; decide)).2.2.2.2.1⟩

/-! ## Instances of claims C11 to C20 at concrete inputs -/

/-- Instance of `chaining_value_invariant` on 70 bytes: one block compressed, 6 bytes
buffered. -/
theorem chaining_value_invariant_witness :
    usedCtx.m_state.length = 8 ∧ usedCtx.m_data.length = 64 ∧
      (∀ b ∈ List.replicate 70 0x61, b < 256) ∧
      (sha256_update (sha256_init usedCtx) (List.replicate 70 0x61)).m_blocklen =
        (List.replicate 70 0x61).length % 64 :=
  ⟨by decide, by decide, by decide,
    (chaining_value_invariant usedCtx (List.replicate 70 0x61) (by decide) (by decide)
      (by decide)).2.1⟩

/-- Instance of `blocklen_in_range` on a context with 7 buffered bytes. -/
theorem blocklen_in_range_witness :
    usedCtx.m_blocklen < 64 ∧
      (sha256_update usedCtx (List.replicate 100 1)).m_blocklen < 64 ∧
      (sha256_digest usedCtx (List.replicate 32 0)).1.m_blocklen < 64 :=
  ⟨by decide, (blocklen_in_range usedCtx (by decide)).2.1 (List.replicate 100 1),
    (blocklen_in_range usedCtx (by decide)).2.2 (List.replicate 32 0)⟩

/-- Instance of `blocklen_reset_by_update`: after the digest of "abc", `m_blocklen`
is 3. -/
theorem blocklen_reset_by_update_witness :
    usedCtx.m_state.length = 8 ∧ usedCtx.m_data.length = 64 ∧
      (sha256_digest (sha256_update (sha256_init usedCtx) [0x61, 0x62, 0x63])
        (List.replicate 32 0)).1.m_blocklen = [0x61, 0x62, 0x63].length % 64 :=
  ⟨by decide, by decide,
    (blocklen_reset_by_update usedCtx [0x61, 0x62, 0x63] (List.replicate 32 0) (by decide)
      (by decide)).2.2.2⟩

/-- Instance of `choose_majority_standard` on concrete words. -/
theorem choose_majority_standard_witness :
    0xf0f0f0f0 < 2 ^ 32 ∧ 0x12345678 < 2 ^ 32 ∧
      majority 5 6 7 = (5 &&& 6) ^^^ (5 &&& 7) ^^^ (6 &&& 7) ∧
      choose 0xf0f0f0f0 0xffffffff 0x12345678 =
        (0xf0f0f0f0 &&& 0xffffffff) ||| ((0xffffffff ^^^ 0xf0f0f0f0) &&& 0x12345678) :=
  ⟨by decide, by decide,
    (choose_majority_standard 5 6 7 0xf0f0f0f0 0xffffffff 0x12345678 (by decide)
      (by decide)).1,
    (choose_majority_standard 5 6 7 0xf0f0f0f0 0xffffffff 0x12345678 (by decide)
      (by decide)).2.2.2⟩

/-- Instance of `buffering_without_compression`: 3 bytes onto 7 buffered ones. -/
theorem buffering_without_compression_witness :
    usedCtx.m_data.length = 64 ∧ usedCtx.m_blocklen + [1, 2, 3].length < 64 ∧
      (sha256_update usedCtx [1, 2, 3]).m_state = usedCtx.m_state ∧
      (sha256_update usedCtx [1, 2, 3]).m_blocklen = usedCtx.m_blocklen + [1, 2, 3].length :=
  ⟨by decide, by decide,
    (buffering_without_compression usedCtx [1, 2, 3] (by decide) (by decide)).1,
    (buffering_without_compression usedCtx [1, 2, 3] (by decide) (by decide)).2.2.1⟩

/-- Instance of `finalization_not_repeatable` from a used context. -/
theorem finalization_not_repeatable_witness :
    usedCtx.m_state.length = 8 ∧ usedCtx.m_data.length = 64 ∧
      32 ≤ (List.replicate 32 9).length ∧ usedCtx.m_blocklen < 64 ∧
      ((sha256_digest (sha256_digest (sha256_init usedCtx) (List.replicate 32 9)).1
          (sha256_digest (sha256_init usedCtx) (List.replicate 32 9)).2).2).take 32 ≠
        ((sha256_digest (sha256_init usedCtx) (List.replicate 32 9)).2).take 32 :=
  ⟨by decide, by decide, by decide, by decide,
    (finalization_not_repeatable usedCtx usedCtx (List.replicate 32 9) (by decide) (by decide)
      (by decide) (by decide) (by decide)).1⟩

/-! ## The hexadecimal string of a digest -/

theorem take_strlen (s : List Nat) : s.take (strlen s) = s.takeWhile (fun b => b != 0) := by
  rw [strlen]
  induction s with
  | nil => rfl
  | cons x s ih =>
    by_cases hx : (x != 0) = true
    · simp only [List.takeWhile_cons, hx, if_true, List.length_cons, List.take_succ_cons, ih]
    · simp only [List.takeWhile_cons, hx, List.length_nil, List.take_zero]
      rfl

theorem hex_char_ne_zero : ∀ h, h < 16 → (hex_chars.getD h 0 != 0) = true := by decide

theorem hex_char_digit : ∀ h, h < 16 → Char.ofNat (hex_chars.getD h 0) = Nat.digitChar h := by
  decide

theorem range_flatMap_getD (e : List Nat) (he : e.length = 32) (f : Nat → List Nat) :
    (List.range 32).flatMap (fun i => f (e.getD i 0)) = e.flatMap f := by
  obtain ⟨a0, a1, a2, a3, a4, a5, a6, a7, a8, a9, a10, a11, a12, a13, a14, a15, a16, a17, a18,
      a19, a20, a21, a22, a23, a24, a25, a26, a27, a28, a29, a30, a31, hA⟩ :=
    length_thirtytwo e he
  have hr : List.range 32 = [0, 1, 2, 3, 4, 5, 6, 7, 8, 9, 10, 11, 12, 13, 14, 15, 16, 17, 18,
    19, 20, 21, 22, 23, 24, 25, 26, 27, 28, 29, 30, 31] := by decide
  rw [hA, hr]
  simp only [List.flatMap_cons, List.flatMap_nil, List.getD_cons_zero, List.getD_cons_succ]

theorem cString_hex (e : List Nat) (he : e.length = 32) (hb : ∀ b ∈ e, b < 256) :
    cString (sha256_toString [] e) = specHex e := by
  rw [toString_nibbles [] e hb,
    range_flatMap_getD e he (fun b => [hex_chars.getD (b / 16) 0, hex_chars.getD (b % 16) 0])]
  have hnz : ∀ x ∈ e.flatMap (fun b => [hex_chars.getD (b / 16) 0, hex_chars.getD (b % 16) 0]),
      (x != 0) = true := by
    intro x hx
    obtain ⟨b, hbe, hxb⟩ := List.mem_flatMap.1 hx
    have := hb b hbe
    simp only [List.mem_cons, List.mem_nil_iff, or_false] at hxb
    rcases hxb with h | h <;> rw [h] <;> exact hex_char_ne_zero _ (by omega)
  simp only [cString, specHex, List.append_assoc, List.singleton_append, List.drop_nil,
    List.append_nil, takeWhile_append_zero]
  rw [List.takeWhile_eq_self_iff.2 hnz, List.map_flatMap]
  congr 1
  apply List.flatMap_congr
  intro b hbe
  have := hb b hbe
  simp only [List.map_cons, List.map_nil, hex_char_digit _ (show b / 16 < 16 by omega),
    hex_char_digit _ (show b % 16 < 16 by omega)]

/-! ## Claim C16 -/

theorem specSHA256_bytes (msg : List Nat) : ∀ b ∈ specSHA256 msg, b < 256 := by
  intro b hb
  obtain ⟨w, -, hw⟩ := List.mem_flatMap.1 hb
  simp only [specWordBytes, List.mem_cons, List.mem_nil_iff, or_false] at hw
  rcases hw with h | h | h | h <;> omega

theorem main_iteration_spec (s : MainState) (arg : List Nat) (hs : s.ctx.m_state.length = 8)
    (hd : s.ctx.m_data.length = 64) (hh : 32 ≤ s.hash.length) (hb : ∀ b ∈ arg, b < 256) :
    (main_iteration s arg).stdout = s.stdout ++
        [specHex (specSHA256 (arg.takeWhile (fun b => b != 0))) ++ "\n"] ∧
      (main_iteration s arg).ctx.m_state.length = 8 ∧
      (main_iteration s arg).ctx.m_data.length = 64 ∧
      32 ≤ (main_iteration s arg).hash.length := by
  have hm : ∀ b ∈ arg.takeWhile (fun b => b != 0), b < 256 :=
    fun b h => hb b ((List.takeWhile_sublist _).subset h)
  have hdig := digest_spec s.ctx (arg.takeWhile (fun b => b != 0)) s.hash hs hd hm hh
  have hst := pad_update_spec s.ctx hs hd (arg.takeWhile (fun b => b != 0)) hm
  have inv := updInv_update specIV 0 (arg.takeWhile (fun b => b != 0)) [] _
    (updInv_init s.ctx hs hd)
  have hlen := (pad_eq _ inv.len (by rw [inv.blocklen]; exact Nat.mod_lt _ (by decide))).2.2.2.1
  simp only [main_iteration, take_strlen]
  refine ⟨?_, ?_, hlen, ?_⟩
  · rw [cString_toString, hdig, List.take_left' (specSHA256_length _),
      cString_hex _ (specSHA256_length _) (specSHA256_bytes _)]
  · show (pad _).m_state.length = 8
    rw [hst]; exact foldl_specCompress_length _ specIV rfl
  · rw [hdig]
    simp only [List.length_append, specSHA256_length, List.length_drop]
    omega

theorem main_loop_spec (args : List (List Nat)) (s : MainState)
    (hs : s.ctx.m_state.length = 8) (hd : s.ctx.m_data.length = 64) (hh : 32 ≤ s.hash.length)
    (hb : ∀ a ∈ args, ∀ b ∈ a, b < 256) :
    (args.foldl main_iteration s).stdout = s.stdout ++
      args.map (fun a => specHex (specSHA256 (a.takeWhile (fun b => b != 0))) ++ "\n") := by
  induction args generalizing s with
  | nil => simp
  | cons a args ih =>
    obtain ⟨h1, h2, h3, h4⟩ := main_iteration_spec s a hs hd hh (hb a (List.mem_cons_self _ _))
    rw [List.foldl_cons, ih _ h2 h3 h4 (fun a' ha' => hb a' (List.mem_cons_of_mem _ ha')), h1]
    simp

theorem specHex_length (d : List Nat) (hd : d.length = 32) : (specHex d).length = 64 := by
  obtain ⟨a0, a1, a2, a3, a4, a5, a6, a7, a8, a9, a10, a11, a12, a13, a14, a15, a16, a17, a18,
      a19, a20, a21, a22, a23, a24, a25, a26, a27, a28, a29, a30, a31, hA⟩ :=
    length_thirtytwo d hd
  rw [hA]
  rfl

theorem digitChar_hex : ∀ h, h < 16 → Nat.digitChar h ∈ "0123456789abcdef".toList := by
  decide

theorem specHex_chars (d : List Nat) (hb : ∀ b ∈ d, b < 256) :
    ∀ ch ∈ (specHex d).toList, ch ∈ "0123456789abcdef".toList := by
  intro ch hch
  simp only [specHex] at hch
  obtain ⟨b, hbd, hcb⟩ := List.mem_flatMap.1 hch
  have := hb b hbd
  simp only [List.mem_cons, List.mem_nil_iff, or_false] at hcb
  rcases hcb with h | h <;> rw [h] <;> exact digitChar_hex _ (by omega)

set_option maxRecDepth 1000000 in
set_option maxHeartbeats 4000000 in
theorem specHex_abc :
    specHex (specSHA256 [0x61, 0x62, 0x63]) =
      "ba7816bf8f01cfea414140de5dae2223b00361a396177a9cb410ff61f20015ad" := by
  rfl

/-- C16: command-line behaviour.  For every `argv` (program name first), `main` writes
one line per argument `argv[1..]`, the `i`-th being the 64-character lowercase
hexadecimal SHA-256 digest of the bytes of that argument (those before its
terminating zero) followed by a newline, whatever was hashed before it through the
shared globals; with no arguments it writes nothing; it returns 0.  Called with the
single argument "abc" it writes the line ba7816bf...f20015ad. -/
theorem main_behaviour (hash : List Nat) (argv : List (List Nat)) (hh : 32 ≤ hash.length)
    (hb : ∀ a ∈ argv, ∀ b ∈ a, b < 256) :
    (main hash argv).1 = (argv.drop 1).map
        (fun a => specHex (specSHA256 (a.takeWhile (fun b => b != 0))) ++ "\n") ∧
      (main hash argv).1.length = (argv.drop 1).length ∧
      (main hash argv).2 = 0 ∧
      (∀ prog : List Nat, main hash [prog] = ([], 0)) ∧ main hash [] = ([], 0) ∧
      (∀ msg : List Nat, (specHex (specSHA256 msg)).length = 64 ∧
        ∀ ch ∈ (specHex (specSHA256 msg)).toList, ch ∈ "0123456789abcdef".toList) ∧
      (main hash [[0x73, 0], [0x61, 0x62, 0x63, 0]]).1 =
        ["ba7816bf8f01cfea414140de5dae2223b00361a396177a9cb410ff61f20015ad\n"] := by
  have hmain : (main hash argv).1 = (argv.drop 1).map
      (fun a => specHex (specSHA256 (a.takeWhile (fun b => b != 0))) ++ "\n") := by
    have := main_loop_spec (argv.drop 1)
      { ctx := zeroCtx, hash := hash, hashstr := List.replicate 65 0, stdout := [] }
      rfl rfl hh (fun a ha => hb a (List.mem_of_mem_drop ha))
    simpa [main] using this
  refine ⟨hmain, ?_, rfl, fun _ => rfl, rfl, fun msg => ⟨?_, ?_⟩, ?_⟩
  · rw [hmain, List.length_map]
  · exact specHex_length _ (specSHA256_length msg)
  · exact specHex_chars _ (specSHA256_bytes msg)
  · have := main_loop_spec [[0x61, 0x62, 0x63, 0]]
      { ctx := zeroCtx, hash := hash, hashstr := List.replicate 65 0, stdout := [] }
      rfl rfl hh (by decide)
    have htw : List.takeWhile (fun b => b != 0) [0x61, 0x62, 0x63, 0] = [0x61, 0x62, 0x63] := by
      decide
    simp only [List.map_cons, List.map_nil, List.nil_append, htw, specHex_abc] at this
    exact this

set_option maxRecDepth 1000000 in
set_option maxHeartbeats 4000000 in
/-- Instance of `main_behaviour`: the program called with the arguments "abc" and "". -/
theorem main_behaviour_witness :
    32 ≤ (List.replicate 32 7).length ∧
      (∀ a ∈ [[0x73, 0], [0x61, 0x62, 0x63, 0], [0]], ∀ b ∈ a, b < 256) ∧
      (main (List.replicate 32 7) [[0x73, 0], [0x61, 0x62, 0x63, 0], [0]]).1 =
        ([[0x73, 0], [0x61, 0x62, 0x63, 0], [0]].drop 1).map
          (fun a => specHex (specSHA256 (a.takeWhile (fun b => b != 0))) ++ "\n") :=
  ⟨by decide, by decide,
    (main_behaviour (List.replicate 32 7) [[0x73, 0], [0x61, 0x62, 0x63, 0], [0]] (by decide)
      (by decide)).1⟩

/-! ## The checked code agrees with the code -/

theorem readAt_some (a : List Nat) (i : Nat) (h : i < a.length) :
    readAt a i = some (a.getD i 0) := by
  simp only [readAt, h, if_true]

theorem readAtSub_some (a : List Nat) (k j : Nat) (hj : j ≤ k) (h : k - j < a.length) :
    readAtSub a k j = some (a.getD (k - j) 0) := by
  simp only [readAtSub, hj, if_true, readAt_some a _ h]

theorem writeAt_some (a : List Nat) (i v : Nat) (h : i < a.length) :
    writeAt a i v = some (a.set i v) := by
  simp only [writeAt, h, if_true]

theorem memsetZero_some (a : List Nat) (n : Nat) (h : n ≤ a.length) :
    memsetZero a n = some (List.replicate n 0 ++ a.drop n) := by
  simp only [memsetZero, h, if_true]

theorem foldlM_some {α β : Type} (f : β → α → Option β) (g : β → α → β) (P : β → Prop)
    (l : List α) (b : β) (hP : P b)
    (hstep : ∀ b a, a ∈ l → P b → f b a = some (g b a) ∧ P (g b a)) :
    l.foldlM f b = some (l.foldl g b) ∧ P (l.foldl g b) := by
  induction l generalizing b with
  | nil => exact ⟨rfl, hP⟩
  | cons a l ih =>
    obtain ⟨h1, h2⟩ := hstep b a (List.mem_cons_self _ _) hP
    rw [List.foldlM_cons, h1, List.foldl_cons]
    exact ih (g b a) h2 (fun b' a' ha' => hstep b' a' (List.mem_cons_of_mem _ ha'))

theorem transform_loadC_some (d m : List Nat) (i : Nat) (hd : d.length = 64)
    (hm : m.length = 64) (hi : i < 16) :
    transform_loadC d m i = some (transform_load d m i) ∧ (transform_load d m i).length = 64 := by
  constructor
  · simp only [transform_loadC, transform_load, readAt_some d (4 * i) (by omega),
      readAt_some d (4 * i + 1) (by omega), readAt_some d (4 * i + 2) (by omega),
      readAt_some d (4 * i + 3) (by omega), writeAt_some m i _ (by omega),
      Option.bind_eq_bind, Option.some_bind]
  · simp only [transform_load, List.length_set, hm]

theorem transform_extendC_some (m : List Nat) (k : Nat) (hm : m.length = 64) (h1 : 16 ≤ k)
    (h2 : k < 64) :
    transform_extendC m k = some (transform_extend m k) ∧ (transform_extend m k).length = 64 := by
  constructor
  · simp only [transform_extendC, transform_extend, readAtSub_some m k 2 (by omega) (by omega),
      readAtSub_some m k 7 (by omega) (by omega), readAtSub_some m k 15 (by omega) (by omega),
      readAtSub_some m k 16 (by omega) (by omega), writeAt_some m k _ (by omega),
      Option.bind_eq_bind, Option.some_bind]
  · simp only [transform_extend, List.length_set, hm]

theorem copyAt_some (s : List Nat) (dst src : Nat) (h1 : dst < s.length) (h2 : src < s.length) :
    copyAt s dst src = some (s.set dst (s.getD src 0)) := by
  simp only [copyAt, readAt_some s src h2, writeAt_some s dst _ h1, Option.bind_eq_bind,
    Option.some_bind]

theorem transform_roundC_some (m state : List Nat) (i : Nat) (hm : m.length = 64)
    (hs : state.length = 8) (hi : i < 64) :
    transform_roundC m state i = some (transform_round m state i) ∧
      (transform_round m state i).length = 8 := by
  have hK : i < K.length := by rw [K_length]; exact hi
  have hmi : i < m.length := by omega
  constructor
  · simp only [transform_roundC, round_valuesC, round_rotateC, copyAt, readAt, writeAt,
      transform_round, List.length_set, hs, hK, hmi, if_true, Nat.reduceLT, Option.bind_eq_bind,
      Option.some_bind, Option.pure_def]
  · simp only [transform_round, List.length_set, hs]

theorem transformC_some (ctx : Ctx) (hd : ctx.m_data.length = 64)
    (hs : ctx.m_state.length = 8) :
    transformC ctx = some (transform ctx) ∧ (transform ctx).m_state.length = 8 := by
  obtain ⟨e1, l1⟩ := foldlM_some (transform_loadC ctx.m_data) (transform_load ctx.m_data)
    (fun m => m.length = 64) (List.range 16) (List.replicate 64 0) (by simp)
    (fun m i hi hm => transform_loadC_some _ m i hd hm (List.mem_range.1 hi))
  obtain ⟨e2, l2⟩ := foldlM_some transform_extendC transform_extend
    (fun m => m.length = 64) (List.range' 16 48) _ l1
    (fun m k hk hm => transform_extendC_some m k hm (List.mem_range'_1.1 hk).1
      (List.mem_range'_1.1 hk).2)
  obtain ⟨e3, l3⟩ := foldlM_some
    (fun s i => do let v ← readAt ctx.m_state i; writeAt s i v)
    (fun s i => s.set i (ctx.m_state.getD i 0))
    (fun s => s.length = 8) (List.range 8) (List.replicate 8 0) (by simp)
    (fun s i hi hl => by
      have hi' := List.mem_range.1 hi
      refine ⟨?_, by simp only [List.length_set, hl]⟩
      simp only [readAt_some ctx.m_state i (by omega), writeAt_some s i _ (by omega),
        Option.bind_eq_bind, Option.some_bind])
  obtain ⟨e4, l4⟩ := foldlM_some (transform_roundC _) (transform_round _)
    (fun s => s.length = 8) (List.range 64) _ l3
    (fun s i hi hl => transform_roundC_some _ s i l2 hl (List.mem_range.1 hi))
  obtain ⟨e5, l5⟩ := foldlM_some
    (fun ms i => do
      let a ← readAt ms i
      let b ← readAt ((List.range 64).foldl (transform_round
        ((List.range' 16 48).foldl transform_extend
          ((List.range 16).foldl (transform_load ctx.m_data) (List.replicate 64 0))))
        ((List.range 8).foldl (fun s i => s.set i (ctx.m_state.getD i 0))
          (List.replicate 8 0))) i
      writeAt ms i ((a + b) % 2 ^ 32))
    (fun ms i => ms.set i ((ms.getD i 0 + ((List.range 64).foldl (transform_round
        ((List.range' 16 48).foldl transform_extend
          ((List.range 16).foldl (transform_load ctx.m_data) (List.replicate 64 0))))
        ((List.range 8).foldl (fun s i => s.set i (ctx.m_state.getD i 0))
          (List.replicate 8 0))).getD i 0) % 2 ^ 32))
    (fun s => s.length = 8) (List.range 8) ctx.m_state hs
    (fun s i hi hl => by
      have hi' := List.mem_range.1 hi
      refine ⟨?_, by simp only [List.length_set, hl]⟩
      simp only [readAt_some s i (by omega), readAt_some _ i (show i < _ by rw [l4]; exact hi'),
        writeAt_some s i _ (by omega), Option.bind_eq_bind, Option.some_bind])
  simp only [Option.bind_eq_bind] at e3 e5
  constructor
  · simp only [transformC, transform, e1, e2, e3, e4, e5, Option.bind_eq_bind, Option.some_bind,
      Option.pure_def]
  · exact l5

theorem update_byteC_some (c : Ctx) (b : Nat) (hd : c.m_data.length = 64)
    (hs : c.m_state.length = 8) (hL : c.m_blocklen < 64) :
    update_byteC c b = some (update_byte c b) ∧ (update_byte c b).m_data.length = 64 ∧
      (update_byte c b).m_state.length = 8 ∧ (update_byte c b).m_blocklen < 64 := by
  have hw := writeAt_some c.m_data c.m_blocklen b (by omega)
  by_cases h : (c.m_blocklen + 1) % 2 ^ 32 = 64
  · obtain ⟨et, lt⟩ := transformC_some
      { c with m_data := c.m_data.set c.m_blocklen b, m_blocklen := 64 }
      (by simp only [List.length_set, hd]) hs
    refine ⟨?_, ?_, ?_, ?_⟩
    · simp only [update_byteC, update_byte, hw, h, if_true, et, Option.bind_eq_bind,
        Option.some_bind, Option.pure_def]
    · simp only [update_byte, h, if_true, transform_blockStep, List.length_set, hd]
    · simp only [update_byte, h, if_true]
      exact lt
    · simp only [update_byte, h, if_true]
      decide
  · refine ⟨?_, ?_, ?_, ?_⟩
    · simp only [update_byteC, update_byte, hw, h, if_false, Option.bind_eq_bind,
        Option.some_bind, Option.pure_def]
    · simp only [update_byte, h, if_false, List.length_set, hd]
    · simp only [update_byte, h, if_false, hs]
    · simp only [update_byte, h, if_false]
      omega

theorem sha256_updateC_some (c : Ctx) (data : List Nat) (hd : c.m_data.length = 64)
    (hs : c.m_state.length = 8) (hL : c.m_blocklen < 64) :
    sha256_updateC c data = some (sha256_update c data) ∧
      (sha256_update c data).m_data.length = 64 ∧
      (sha256_update c data).m_state.length = 8 ∧ (sha256_update c data).m_blocklen < 64 :=
  foldlM_some update_byteC update_byte
    (fun c => c.m_data.length = 64 ∧ c.m_state.length = 8 ∧ c.m_blocklen < 64) data c
    ⟨hd, hs, hL⟩ (fun c b _ h => update_byteC_some c b h.1 h.2.1 h.2.2)

theorem pad_fillC_some (c : Ctx) (hd : c.m_data.length = 64) (hL : c.m_blocklen < 64) :
    pad_fillC c = some ((List.range' (c.m_blocklen + 1)
        ((if c.m_blocklen < 56 then 56 else 64) - (c.m_blocklen + 1))).foldl
        (fun d k => d.set k 0x00) (c.m_data.set c.m_blocklen 0x80)) ∧
      ((List.range' (c.m_blocklen + 1)
        ((if c.m_blocklen < 56 then 56 else 64) - (c.m_blocklen + 1))).foldl
        (fun d k => d.set k 0x00) (c.m_data.set c.m_blocklen 0x80)).length = 64 := by
  have hfin : (if c.m_blocklen < 56 then 56 else 64) ≤ 64 := by split <;> omega
  obtain ⟨e, l⟩ := foldlM_some (fun d k => writeAt d k 0x00) (fun d k => d.set k 0x00)
    (fun d => d.length = 64)
    (List.range' (c.m_blocklen + 1) ((if c.m_blocklen < 56 then 56 else 64) - (c.m_blocklen + 1)))
    (c.m_data.set c.m_blocklen 0x80) (by simp only [List.length_set, hd])
    (fun d k hk hl => by
      have := (List.mem_range'_1.1 hk).2
      exact ⟨writeAt_some d k _ (by omega), by simp only [List.length_set, hl]⟩)
  refine ⟨?_, l⟩
  simp only [pad_fillC, writeAt_some c.m_data c.m_blocklen _ (by omega), Option.bind_eq_bind,
    Option.some_bind, e]

theorem pad_lengthC_some (d : List Nat) (bitlen : Nat) (hd : d.length = 64) :
    pad_lengthC d bitlen = some ((((((((d.set 63 (bitlen % 256)).set 62
      ((bitlen >>> 8) % 256)).set 61 ((bitlen >>> 16) % 256)).set 60
      ((bitlen >>> 24) % 256)).set 59 ((bitlen >>> 32) % 256)).set 58
      ((bitlen >>> 40) % 256)).set 57 ((bitlen >>> 48) % 256)).set 56
      ((bitlen >>> 56) % 256)) := by
  simp only [pad_lengthC, writeAt, List.length_set, hd, Nat.reduceLT, if_true,
    Option.bind_eq_bind, Option.some_bind]

theorem transformC_eq (c : Ctx) (hd : c.m_data.length = 64) (hs : c.m_state.length = 8) :
    transformC c = some (transform c) := (transformC_some c hd hs).1

theorem blockStep_length (st blk : List Nat) (hs : st.length = 8) (hb : blk.length = 64) :
    (blockStep st blk).length = 8 :=
  (transformC_some { m_data := blk, m_blocklen := 0, m_bitlen := 0, m_state := st } hb hs).2

theorem padC_some (c : Ctx) (hd : c.m_data.length = 64) (hs : c.m_state.length = 8)
    (hL : c.m_blocklen < 64) : padC c = some (pad c) := by
  obtain ⟨ef, lf⟩ := pad_fillC_some c hd hL
  by_cases h : c.m_blocklen < 56
  · have hn : ¬ c.m_blocklen ≥ 56 := by omega
    simp only [h, if_true] at ef lf
    simp only [padC, ef, hn, if_false, Option.bind_eq_bind, Option.some_bind,
      Option.pure_def, pad_lengthC_some _ _ lf]
    rw [transformC_eq]
    · simp only [pad, h, hn, if_true, if_false]
    · simp only [List.length_set, lf]
    · exact hs
  · have hge : c.m_blocklen ≥ 56 := by omega
    simp only [h, if_false] at ef lf
    simp only [padC, ef, hge, if_true, Option.bind_eq_bind, Option.some_bind,
      Option.pure_def]
    rw [transformC_eq]
    · simp only [Option.some_bind, transform_blockStep]
      rw [memsetZero_some _ _ (by omega)]
      have lz : (List.replicate 56 0 ++ List.drop 56 ((List.range' (c.m_blocklen + 1)
          (64 - (c.m_blocklen + 1))).foldl (fun d k => d.set k 0x00)
          (c.m_data.set c.m_blocklen 0x80))).length = 64 := by
        simp only [List.length_append, List.length_replicate, List.length_drop, lf]
      simp only [Option.some_bind, pad_lengthC_some _ _ lz]
      rw [transformC_eq]
      · simp only [pad, h, hge, if_true, if_false, transform_blockStep]
      · simp only [List.length_set, lz]
      · exact blockStep_length _ _ hs lf
    · exact lf
    · exact hs

/-! ## Claim C18 -/

theorem revertC_some (ctx : Ctx) (hash : List Nat) (hs : ctx.m_state.length = 8)
    (hh : 32 ≤ hash.length) : revertC ctx hash = some (revert ctx hash) := by
  obtain ⟨e, -⟩ := foldlM_some
    (fun h i => (List.range 8).foldlM (fun h j => do
      let w ← readAt ctx.m_state j
      writeAt h (i + j * 4) ((w >>> (24 - i * 8)) &&& 0x000000ff)) h)
    (fun h i => (List.range 8).foldl (fun h j =>
      h.set (i + j * 4) ((ctx.m_state.getD j 0 >>> (24 - i * 8)) &&& 0x000000ff)) h)
    (fun h => 32 ≤ h.length) (List.range 4) hash hh
    (fun h i hi hl => by
      have hi' := List.mem_range.1 hi
      exact foldlM_some
        (fun h j => do
          let w ← readAt ctx.m_state j
          writeAt h (i + j * 4) ((w >>> (24 - i * 8)) &&& 0x000000ff))
        (fun h j =>
          h.set (i + j * 4) ((ctx.m_state.getD j 0 >>> (24 - i * 8)) &&& 0x000000ff))
        (fun h => 32 ≤ h.length) (List.range 8) h hl
        (fun h' j hj hl' => by
          have hj' := List.mem_range.1 hj
          refine ⟨?_, by simp only [List.length_set]; exact hl'⟩
          simp only [readAt_some ctx.m_state j (by omega),
            writeAt_some h' (i + j * 4) _ (by omega), Option.bind_eq_bind,
            Option.some_bind]))
  simp only [Option.bind_eq_bind] at e
  simp only [revertC, revert, e, Option.bind_eq_bind, Option.some_bind, Option.pure_def]

theorem sha256_digestC_some (ctx : Ctx) (hash : List Nat) (hd : ctx.m_data.length = 64)
    (hs : ctx.m_state.length = 8) (hL : ctx.m_blocklen < 64) (hh : 32 ≤ hash.length) :
    sha256_digestC ctx hash = some (sha256_digest ctx hash) := by
  have hps : (pad ctx).m_state.length = 8 := by
    rw [(pad_eq ctx hd hL).1]
    have hfb : ∀ blk ∈ specFinalBlocks (ctx.m_data.take ctx.m_blocklen)
        (ctx.m_bitlen + 8 * ctx.m_blocklen), blk.length = 64 := by
      intro blk hblk
      have htl : (ctx.m_data.take ctx.m_blocklen).length = ctx.m_blocklen := by
        rw [List.length_take]; omega
      simp only [specFinalBlocks, htl] at hblk
      split at hblk
      · simp only [List.mem_singleton] at hblk
        rw [hblk]
        simp only [List.length_append, htl, List.length_replicate, specBe64_length,
          List.length_singleton]
        omega
      · simp only [List.mem_cons, List.mem_nil_iff, or_false] at hblk
        rcases hblk with h | h
        · rw [h]
          simp only [List.length_append, htl, List.length_replicate, List.length_singleton]
          omega
        · rw [h]
          simp only [List.length_append, List.length_replicate, specBe64_length]
    generalize specFinalBlocks (ctx.m_data.take ctx.m_blocklen)
      (ctx.m_bitlen + 8 * ctx.m_blocklen) = blocks at hfb
    generalize ctx.m_state = st at hs
    induction blocks generalizing st with
    | nil => exact hs
    | cons blk blocks ih =>
      exact ih (fun b hb => hfb b (List.mem_cons_of_mem _ hb)) _
        (blockStep_length _ _ hs (hfb blk (List.mem_cons_self _ _)))
  simp only [sha256_digestC, sha256_digest, padC_some ctx hd hs hL, Option.bind_eq_bind,
    Option.some_bind, revertC_some (pad ctx) hash hps hh]

theorem nibble_index (b : Nat) : (b &&& 0xF0) >>> 4 < 16 ∧ (b &&& 0x0F) >>> 0 < 16 := by
  have h1 : b &&& 0xF0 ≤ 0xF0 := Nat.and_le_right
  have h2 : b &&& 0x0F ≤ 0x0F := Nat.and_le_right
  rw [Nat.shiftRight_eq_div_pow, Nat.shiftRight_eq_div_pow]
  constructor <;> omega

theorem hex_chars_length : hex_chars.length = 16 := rfl

theorem sha256_toStringC_some (hashstr digest : List Nat) (hhs : 65 ≤ hashstr.length)
    (hdg : 32 ≤ digest.length) :
    sha256_toStringC hashstr digest = some (sha256_toString hashstr digest) := by
  obtain ⟨e, -⟩ := foldlM_some (toString_byteC digest)
    (fun s i =>
      let s := s.set (i * 2) (hex_chars.getD ((digest.getD i 0 &&& 0xF0) >>> 4) 0)
      s.set (i * 2 + 1) (hex_chars.getD ((digest.getD i 0 &&& 0x0F) >>> 0) 0))
    (fun s => 65 ≤ s.length) (List.range 32) (List.replicate 65 0 ++ hashstr.drop 65)
    (by simp only [List.length_append, List.length_replicate]; omega)
    (fun s i hi hl => by
      have hi' := List.mem_range.1 hi
      have hn := nibble_index (digest.getD i 0)
      refine ⟨?_, by simp only [List.length_set]; exact hl⟩
      simp only [toString_byteC, readAt_some digest i (by omega),
        readAt_some hex_chars _ (show _ < hex_chars.length by rw [hex_chars_length]; exact hn.1),
        readAt_some hex_chars _ (show _ < hex_chars.length by rw [hex_chars_length]; exact hn.2),
        writeAt_some s (i * 2) _ (by omega),
        writeAt_some (s.set (i * 2) _) (i * 2 + 1) _ (by simp only [List.length_set]; omega),
        Option.bind_eq_bind, Option.some_bind])
  simp only [sha256_toStringC, sha256_toString, memsetZero_some hashstr 65 hhs,
    Option.bind_eq_bind, Option.some_bind, e]

/-- C18: no out-of-range access under the invariant.  For every context with an
8-word state, a 64-byte buffer and `m_blocklen < 64`, every input, a `hash` buffer of
at least 32 bytes, a `hashstr` buffer of at least 65 and a digest of at least 32, the
versions of `sha256_update`, `transform`, `pad`, `revert`, `sha256_digest` and
`sha256_toString` that check every array index (buffer, message schedule including
`k-2`, `k-7`, `k-15`, `k-16`, `K`, state, digest, hex string, hex table) never reach
their error branch and return what the unchecked functions return.  Without the
invariant they do fail: with `m_blocklen = 64` the write `m_data[m_blocklen]` is out
of range. -/
theorem no_out_of_range_access (ctx : Ctx) (data hash hashstr digest : List Nat)
    (hd : ctx.m_data.length = 64) (hs : ctx.m_state.length = 8) (hL : ctx.m_blocklen < 64)
    (hh : 32 ≤ hash.length) (hhs : 65 ≤ hashstr.length) (hdg : 32 ≤ digest.length) :
    sha256_updateC ctx data = some (sha256_update ctx data) ∧
      transformC ctx = some (transform ctx) ∧
      padC ctx = some (pad ctx) ∧
      revertC ctx hash = some (revert ctx hash) ∧
      sha256_digestC ctx hash = some (sha256_digest ctx hash) ∧
      sha256_toStringC hashstr digest = some (sha256_toString hashstr digest) ∧
      (sha256_update ctx data).m_data.length = 64 ∧
      (sha256_update ctx data).m_state.length = 8 ∧
      (sha256_update ctx data).m_blocklen < 64 ∧
      update_byteC { ctx with m_blocklen := 64 } 0 = none ∧
      padC { ctx with m_blocklen := 64 } = none := by
  obtain ⟨eu, l1, l2, l3⟩ := sha256_updateC_some ctx data hd hs hL
  refine ⟨eu, transformC_eq ctx hd hs, padC_some ctx hd hs hL, revertC_some ctx hash hs hh,
    sha256_digestC_some ctx hash hd hs hL hh, sha256_toStringC_some hashstr digest hhs hdg,
    l1, l2, l3, ?_, ?_⟩
  · simp only [update_byteC, writeAt, hd, Nat.lt_irrefl, if_false, Option.bind_eq_bind,
      Option.none_bind]
  · simp only [padC, pad_fillC, writeAt, hd, Nat.lt_irrefl, if_false, Option.bind_eq_bind,
      Option.none_bind]

/-- Instance of `no_out_of_range_access` on a used context and 100 bytes of data. -/
theorem no_out_of_range_access_witness :
    usedCtx.m_data.length = 64 ∧ usedCtx.m_state.length = 8 ∧ usedCtx.m_blocklen < 64 ∧
      32 ≤ (List.replicate 32 0).length ∧ 65 ≤ (List.replicate 65 0).length ∧
      32 ≤ (List.range 32).length ∧
      sha256_updateC usedCtx (List.replicate 100 1) =
        some (sha256_update usedCtx (List.replicate 100 1)) ∧
      sha256_digestC usedCtx (List.replicate 32 0) =
        some (sha256_digest usedCtx (List.replicate 32 0)) :=
  ⟨by decide, by decide, by decide, by decide, by decide, by decide,
    (no_out_of_range_access usedCtx (List.replicate 100 1) (List.replicate 32 0)
      (List.replicate 65 0) (List.range 32) (by decide) (by decide) (by decide) (by decide)
      (by decide) (by decide)).1,
    (no_out_of_range_access usedCtx (List.replicate 100 1) (List.replicate 32 0)
      (List.replicate 65 0) (List.range 32) (by decide) (by decide) (by decide) (by decide)
      (by decide) (by decide)).2.2.2.2.1⟩

end SHA256
